import Mathlib

/-!
Shallow embedding of the WayCap shadow-capture core: the rolling video and
audio buffers (`src/encoders/buffer.rs`), the audio encoder's chunking and
RMS-boost logic (`src/encoders/audio_encoder.rs`), and the muxer
(`save_buffer` in `src/main.rs`).  Rust `i64` timestamps are modelled as
`Int` (no arithmetic in the relevant code paths can overflow within the
claims' scope), `BTreeMap<i64, V>` as a key-sorted association list with
replacing insertion, and `Vec`/`VecDeque` as `List`.
-/

/-- `EncodedVideoFrame` from `waycap_rs::types::video_frame` as used by
`buffer.rs` and `buffer_tests.rs`: opaque data plus pts/dts and a keyframe
flag. -/
structure EncodedVideoFrame where
  data : List Nat
  pts : Int
  is_keyframe : Bool
  dts : Int
deriving DecidableEq, Repr

/-- `TimeWindow` (`buffer.rs` lines 7-36): cached min/max presentation
timestamps. -/
structure TimeWindow where
  min_time : Option Int
  max_time : Option Int
deriving DecidableEq, Repr

/-- `TimeWindow::new`. -/
def TimeWindow.new : TimeWindow := ⟨none, none⟩

/-- `TimeWindow::insert_time`: `min_time = Some(min_time.map_or(t, |m| m.min(t)))`
and symmetrically for `max_time`. -/
def TimeWindow.insert_time (w : TimeWindow) (time : Int) : TimeWindow :=
  { min_time := some (((w.min_time.map (fun m => min m time)).getD time))
    max_time := some (((w.max_time.map (fun m => max m time)).getD time)) }

/-- `TimeWindow::get_elapsed`: `max - min` when both ends are set. -/
def TimeWindow.get_elapsed (w : TimeWindow) : Option Int :=
  match w.min_time, w.max_time with
  | some mn, some mx => some (mx - mn)
  | _, _ => none

/-- `TimeWindow::reset`. -/
def TimeWindow.resetW (_w : TimeWindow) : TimeWindow := ⟨none, none⟩

/-- `BTreeMap::insert` on a key-sorted association list: keeps keys strictly
increasing, replaces the value at an existing key. -/
def btreeInsert {α : Type} (k : Int) (v : α) : List (Int × α) → List (Int × α)
  | [] => [(k, v)]
  | (k', v') :: rest =>
    if k < k' then (k, v) :: (k', v') :: rest
    else if k = k' then (k, v) :: rest
    else (k', v') :: btreeInsert k v rest

/-- `ShadowCaptureVideoBuffer` (`buffer.rs` lines 42-55): DTS-keyed frame
map, window size, keyframe DTS list, cached pts window. -/
structure ShadowCaptureVideoBuffer where
  frames : List (Int × EncodedVideoFrame)
  max_time : Nat
  key_frame_keys : List Int
  time_window : TimeWindow
deriving DecidableEq, Repr

namespace ShadowCaptureVideoBuffer

/-- `ShadowCaptureVideoBuffer::new`. -/
def new (max_time : Nat) : ShadowCaptureVideoBuffer :=
  { frames := [], max_time := max_time, key_frame_keys := [], time_window := TimeWindow.new }

/-- `ShadowCaptureVideoBuffer::recalculate_pts` (`buffer.rs` 141-147):
reset the window, then re-insert every remaining frame's pts. -/
def recalculate_pts (b : ShadowCaptureVideoBuffer) : ShadowCaptureVideoBuffer :=
  { b with time_window :=
      b.frames.foldl (fun w p => w.insert_time p.2.pts) b.time_window.resetW }

/-- `ShadowCaptureVideoBuffer::trim_oldest_gop` (`buffer.rs` 116-129): with
at least two recorded keyframes, drop every frame with `dts < key_frame_keys[1]`,
drop the first recorded keyframe, and recompute the pts window; otherwise a
warning only.  `key_frame_keys[1]` is modelled by `getD 1 0`; the guard makes
the default unreachable. -/
def trim_oldest_gop (b : ShadowCaptureVideoBuffer) : ShadowCaptureVideoBuffer :=
  if b.key_frame_keys.length ≤ 1 then b
  else
    let stop_dts := b.key_frame_keys.getD 1 0
    let b := { b with frames := b.frames.filter (fun p => decide (p.1 ≥ stop_dts)) }
    let b := { b with key_frame_keys := b.key_frame_keys.tail }
    b.recalculate_pts

/-- `ShadowCaptureVideoBuffer::insert` (`buffer.rs` 81-100): record the
keyframe DTS, extend the pts window, insert the frame, and trim the oldest
GOP once when the cached window spans at least `max_time`. -/
def insert (b : ShadowCaptureVideoBuffer) (timestamp : Int) (frame : EncodedVideoFrame) :
    ShadowCaptureVideoBuffer :=
  let b := if frame.is_keyframe then
      { b with key_frame_keys := b.key_frame_keys ++ [timestamp] } else b
  let b := { b with time_window := b.time_window.insert_time frame.pts }
  let b := { b with frames := btreeInsert timestamp frame b.frames }
  match b.time_window.get_elapsed with
  | some elapsed => if elapsed ≥ (b.max_time : Int) then b.trim_oldest_gop else b
  | none => b

/-- `ShadowCaptureVideoBuffer::get_last_gop_start`: last recorded keyframe DTS. -/
def get_last_gop_start (b : ShadowCaptureVideoBuffer) : Option Int :=
  b.key_frame_keys.getLast?

/-- `ShadowCaptureVideoBuffer::reset` (`buffer.rs` 153-156): clears the frame
map and the keyframe list only; the cached `time_window` is not touched. -/
def resetBuf (b : ShadowCaptureVideoBuffer) : ShadowCaptureVideoBuffer :=
  { b with frames := [], key_frame_keys := [] }

/-- `oldest_pts` test accessor: the cached window's `min_time`. -/
def oldest_pts (b : ShadowCaptureVideoBuffer) : Option Int := b.time_window.min_time

/-- `newest_pts` test accessor: the cached window's `max_time`. -/
def newest_pts (b : ShadowCaptureVideoBuffer) : Option Int := b.time_window.max_time

/-- Folding `insert` over a list of `(dts, frame)` operations. -/
def insertAll (b : ShadowCaptureVideoBuffer) (ops : List (Int × EncodedVideoFrame)) :
    ShadowCaptureVideoBuffer :=
  ops.foldl (fun b p => b.insert p.1 p.2) b

end ShadowCaptureVideoBuffer

/-- `ShadowCaptureAudioBuffer` (`buffer.rs` 160-168): pts-keyed encoded
frame map, window size, capture-timestamp list. -/
structure ShadowCaptureAudioBuffer where
  frames : List (Int × List Nat)
  max_time : Nat
  capture_times : List Int
deriving DecidableEq, Repr

namespace ShadowCaptureAudioBuffer

/-- `ShadowCaptureAudioBuffer::new`. -/
def new (max_time : Nat) : ShadowCaptureAudioBuffer :=
  { frames := [], max_time := max_time, capture_times := [] }

/-- One evaluation bound of the `while let` trim loop inside
`ShadowCaptureAudioBuffer::insert` (`buffer.rs` 191-202), with explicit fuel:
each fuel unit is one guard evaluation.  When fuel runs out while the loop is
still running the result is `none`; a `none` for every fuel therefore means
the Rust loop never exits.  Note the loop body removes nothing when the frame
map is already empty (`if let Some(oldest_frame)` fails) yet the `while`
condition is unchanged, so the loop can re-test the same state forever. -/
def trimLoop : Nat → ShadowCaptureAudioBuffer → Option ShadowCaptureAudioBuffer
  | 0, _ => none
  | fuel + 1, b =>
    match b.capture_times.head?, b.capture_times.getLast? with
    | some oldest, some newest =>
      if newest - oldest ≥ (b.max_time : Int) then
        match b.frames.head? with
        | some _ =>
            trimLoop fuel { b with frames := b.frames.tail, capture_times := b.capture_times.tail }
        | none => trimLoop fuel b
      else some b
    | _, _ => some b

/-- `ShadowCaptureAudioBuffer::insert` (`buffer.rs` 188-203) with explicit
fuel for its trim loop: insert the frame into the map, then run the trim
loop.  `none` models the loop still running when the fuel is exhausted. -/
def insertF (fuel : Nat) (b : ShadowCaptureAudioBuffer) (timestamp : Int)
    (frame : List Nat) : Option ShadowCaptureAudioBuffer :=
  trimLoop fuel { b with frames := btreeInsert timestamp frame b.frames }

/-- `ShadowCaptureAudioBuffer::insert` with a fuel that suffices whenever the
loop terminates at all: every productive iteration removes one capture time,
so a run that has not finished within `capture_times.length + 2` guard
evaluations has reached a state it can never leave. -/
def insert (b : ShadowCaptureAudioBuffer) (timestamp : Int) (frame : List Nat) :
    Option ShadowCaptureAudioBuffer :=
  insertF (b.capture_times.length + 2) b timestamp frame

/-- `ShadowCaptureAudioBuffer::insert_capture_time` (`buffer.rs` 213-215). -/
def insert_capture_time (b : ShadowCaptureAudioBuffer) (time : Int) :
    ShadowCaptureAudioBuffer :=
  { b with capture_times := b.capture_times ++ [time] }

end ShadowCaptureAudioBuffer

/-!  The muxer: `save_buffer` in `src/main.rs` (lines 264-387).  Container
setup and the ffmpeg write calls are external; the model records the
sequence of packets handed to `write_interleaved` per stream, together with
the outcome: `ok`, `errNoLastKeyframe` for the early `context(...)` return
when no keyframe was ever recorded, and `panicked` for the unchecked
`audio_capture_timestamps[_]` index panics. -/

/-- Outcome of a `save_buffer` run. -/
inductive MuxOutcome where
  | ok
  | panicked
  | errNoLastKeyframe
deriving DecidableEq, Repr

/-- Packets handed to `write_interleaved`, as `(pts, dts)` pairs per stream,
in order, plus the outcome.  Packets written before a panic are kept: the
ffmpeg writes are side effects that happen before the index panic aborts. -/
structure MuxOutput where
  video : List (Int × Int)
  audio : List (Int × Int)
  outcome : MuxOutcome
deriving DecidableEq, Repr

/-- The video pass of `save_buffer` (`main.rs` 299-328), iterating the
frames with `dts ≤ last_keyframe` in map order.  Per frame the code first
indexes `audio_capture_timestamps[0]` (a panic when the list is empty), then
skips non-keyframes with `pts < capture_times[0]`, otherwise latches
`first_pts_offset` on the first write and emits a packet rebased by it,
tracking `newest_video_pts` as the raw pts of the last written frame.
State/result components: written packets, `first_offset` flag,
`first_pts_offset`, `newest_video_pts`, and a panic flag. -/
def videoLoop (capture_times : List Int) :
    List (Int × EncodedVideoFrame) → Bool → Int → Int →
    List (Int × Int) × Bool × Int × Int × Bool
  | [], first_offset, first_pts_offset, newest => ([], first_offset, first_pts_offset, newest, false)
  | (dts, f) :: rest, first_offset, first_pts_offset, newest =>
    match capture_times.head? with
    | none => ([], first_offset, first_pts_offset, newest, true)
    | some ct0 =>
      if ct0 > f.pts ∧ ¬ f.is_keyframe then
        videoLoop capture_times rest first_offset first_pts_offset newest
      else
        let fpo := if ¬ first_offset then f.pts else first_pts_offset
        let w := (f.pts - fpo, dts - fpo)
        let r := videoLoop capture_times rest true fpo f.pts
        (w :: r.1, r.2)

/-- The audio pass of `save_buffer` (`main.rs` 332-381).  Walks the audio
frame map with a separate index `iter` into `capture_times`; per frame it
first evaluates `capture_times[iter]` (panic when out of range), breaks when
that capture time exceeds `newest_video_pts`, `continue`s — without
advancing `iter` — when it is below `first_pts_offset`, and otherwise
latches `oldest_frame_offset` on the first write, writes a packet with
`pts = dts = pts - oldest_frame_offset`, and increments `iter`. -/
def audioLoop (capture_times : List Int) (first_pts_offset newest_video_pts : Int) :
    List (Int × List Nat) → Nat → Bool → Int → List (Int × Int) × MuxOutcome
  | [], _, _, _ => ([], .ok)
  | (pts, _) :: rest, iter, first_offset, oldest_frame_offset =>
    match capture_times[iter]? with
    | none => ([], .panicked)
    | some ct =>
      if ct > newest_video_pts then ([], .ok)
      else if ct < first_pts_offset then
        audioLoop capture_times first_pts_offset newest_video_pts rest iter first_offset
          oldest_frame_offset
      else
        let off := if ¬ first_offset then pts else oldest_frame_offset
        let r := audioLoop capture_times first_pts_offset newest_video_pts rest (iter + 1) true off
        ((pts - off, pts - off) :: r.1, r.2)

/-- `save_buffer` (`main.rs` 264-387): cut the video at the last recorded
keyframe DTS, run the video pass, then the audio pass. -/
def save_buffer (vb : ShadowCaptureVideoBuffer) (ab : ShadowCaptureAudioBuffer) : MuxOutput :=
  match vb.get_last_gop_start with
  | none => ⟨[], [], .errNoLastKeyframe⟩
  | some last_keyframe =>
    let capture_times := ab.capture_times
    let range := vb.frames.filter (fun p => decide (p.1 ≤ last_keyframe))
    let v := videoLoop capture_times range false 0 0
    if v.2.2.2.2 then ⟨v.1, [], .panicked⟩
    else
      let a := audioLoop capture_times v.2.2.1 v.2.2.2.1 ab.frames 0 false 0
      ⟨v.1, a.1, a.2⟩

/-!  The audio encoder adapter (`src/encoders/audio_encoder.rs`).  Sample
values are modelled over `ℝ` (the claims are about the algebra of the gain
computation, not `f32` rounding). -/

/-- `MIN_RMS` (`audio_encoder.rs` line 10). -/
def MIN_RMS : ℝ := 0.01

/-- The RMS of a sample slice as computed by `boost_with_rms`
(`audio_encoder.rs` 239-240): `sqrt(sum(s*s) / len)`. -/
noncomputable def rmsOf (samples : List ℝ) : ℝ :=
  Real.sqrt ((samples.map (fun s => s * s)).sum / samples.length)

/-- `AudioEncoder::boost_with_rms` (`audio_encoder.rs` 238-253): gain
`MIN_RMS / rms` when `0 < rms < MIN_RMS`, else `1`, clamped to at most `5`,
applied to every sample. -/
noncomputable def boost_with_rms (samples : List ℝ) : List ℝ :=
  let rms := rmsOf samples
  let gain := if rms > 0 ∧ rms < MIN_RMS then MIN_RMS / rms else 1
  let gain := min gain 5
  samples.map (fun s => s * gain)

/-- Modelled from the spec: the `AudioBuffer` type used by
`src/encoders/audio_encoder.rs` is not under `src/` (only its caller is; the
`buffer.rs` present in the tree is the `ShadowCapture*` revision with a
different interface).  Spec §4.2: an ordered `pts_samples → data` map plus a
capture-timestamp list, with `insert_frame`, `insert_capture_time` and a trim
that runs after `insert_capture_time`.  `β` is the encoded-packet payload. -/
structure SpecAudioBuffer (β : Type) where
  frames : List (Int × β)
  max_time : Nat
  capture_times : List Int
deriving DecidableEq, Repr

/-- Modelled from the spec (§4.2): "while `last - first ≥ max_window_us`,
pop the head of both the frames map and the capture-times list". -/
def specTrimLoop {β : Type} (max_time : Nat) :
    List Int → List (Int × β) → List Int × List (Int × β)
  | [], fs => ([], fs)
  | t :: ct, fs =>
    if (ct.getLast?.getD t) - t ≥ (max_time : Int) then specTrimLoop max_time ct fs.tail
    else (t :: ct, fs)

/-- Modelled from the spec (§4.2): `insert_frame(pts_samples, data)` inserts
into the ordered map. -/
def SpecAudioBuffer.insert_frame {β : Type} (b : SpecAudioBuffer β) (pts : Int) (data : β) :
    SpecAudioBuffer β :=
  { b with frames := btreeInsert pts data b.frames }

/-- Modelled from the spec (§4.2): `insert_capture_time(ts_us)` appends,
then trims both sequences from the head. -/
def SpecAudioBuffer.insert_capture_time {β : Type} (b : SpecAudioBuffer β) (time : Int) :
    SpecAudioBuffer β :=
  let r := specTrimLoop b.max_time (b.capture_times ++ [time]) b.frames
  { b with capture_times := r.1, frames := r.2 }

/-- The mutable state of `AudioEncoder` (`audio_encoder.rs` 117-125):
encoder handle presence, its `channels` and `frame_size`, the rolling
buffer, `next_pts`, and the `leftover_data` sample queue.  `sent` counts
`send_frame` calls; it indexes the oracle that stands for the external
encoder's `receive_packet` behaviour. -/
structure AudioEncState (β : Type) where
  encoder_present : Bool
  channels : Nat
  frame_size : Nat
  audio_buffer : SpecAudioBuffer β
  next_pts : Int
  leftover_data : List ℝ
  sent : Nat

/-- The `while self.leftover_data.len() >= frame_size` loop of
`AudioEncoder::process` (`audio_encoder.rs` 163-189), fuelled by the number
of loop iterations; `leftover_data.length` units always suffice since each
iteration drains `frame_size ≥ 1` samples (for `frame_size = 0` the source
loop would never exit; the encoder's frame size is positive).  Per chunk:
drain `frame_size` samples, record the raw frame's capture timestamp, send
the frame (pts = `next_pts`), poll the oracle once for a packet and insert
it, advance `next_pts` by `frame_size`.  Also returns the trace of
`(capture_time, frame_pts)` pairs recorded, in order. -/
def sendChunksFuel {β : Type} (oracle : Nat → Option (Int × β)) (ts : Int) :
    Nat → AudioEncState β → AudioEncState β × List (Int × Int)
  | 0, s => (s, [])
  | fuel + 1, s =>
    if 0 < s.frame_size ∧ s.frame_size ≤ s.leftover_data.length then
      let buf1 := s.audio_buffer.insert_capture_time ts
      let buf2 := match oracle s.sent with
        | some pd => buf1.insert_frame pd.1 pd.2
        | none => buf1
      let s' : AudioEncState β :=
        { s with
            leftover_data := s.leftover_data.drop s.frame_size
            audio_buffer := buf2
            sent := s.sent + 1
            next_pts := s.next_pts + (s.frame_size : Int) }
      let r := sendChunksFuel oracle ts fuel s'
      (r.1, (ts, s.next_pts) :: r.2)
    else (s, [])

/-- `AudioEncoder::process` (`audio_encoder.rs` 146-193): no-op without an
encoder; reject sample counts not divisible by the channel count; boost,
append to `leftover_data`, and drain full chunks.  Returns the new state and
the trace of recorded `(capture_time, frame_pts)` pairs. -/
noncomputable def AudioEncoder.process {β : Type} (oracle : Nat → Option (Int × β))
    (s : AudioEncState β) (samples : List ℝ) (ts : Int) :
    Except Unit (AudioEncState β × List (Int × Int)) :=
  if ¬ s.encoder_present then .ok (s, [])
  else if samples.length % s.channels ≠ 0 then .error ()
  else
    let s := { s with leftover_data := s.leftover_data ++ boost_with_rms samples }
    .ok (sendChunksFuel oracle ts s.leftover_data.length s)

/-- Processing a sequence of raw frames (`samples`, `timestamp`) in order,
accumulating the recorded capture-time/pts trace. -/
noncomputable def AudioEncoder.processAll {β : Type} (oracle : Nat → Option (Int × β)) :
    AudioEncState β → List (List ℝ × Int) → Except Unit (AudioEncState β × List (Int × Int))
  | s, [] => .ok (s, [])
  | s, (samples, ts) :: rest =>
    match AudioEncoder.process oracle s samples ts with
    | .error e => .error e
    | .ok (s', tr) =>
      match AudioEncoder.processAll oracle s' rest with
      | .error e => .error e
      | .ok (s'', tr') => .ok (s'', tr ++ tr')

/-- The chunking trace produced by `k` consecutive chunks starting at frame
pts `pts0`: one `(capture_time, pts)` pair per chunk, pts advancing by
`frame_size` per chunk. -/
def traceFor (ts pts0 : Int) (frame_size : Nat) : Nat → List (Int × Int)
  | 0 => []
  | k + 1 => (ts, pts0) :: traceFor ts (pts0 + frame_size) frame_size k

/-- `AudioEncState` with `leftover_data` replaced by its length: the chunk
loop's control flow and buffer effects depend only on the sample count. -/
structure AudioEncSkel (β : Type) where
  encoder_present : Bool
  channels : Nat
  frame_size : Nat
  audio_buffer : SpecAudioBuffer β
  next_pts : Int
  leftover_len : Nat
  sent : Nat
deriving DecidableEq, Repr

/-- Forget sample values, keep their count. -/
def skelOf {β : Type} (s : AudioEncState β) : AudioEncSkel β :=
  ⟨s.encoder_present, s.channels, s.frame_size, s.audio_buffer, s.next_pts,
    s.leftover_data.length, s.sent⟩

/-- Computable mirror of `sendChunksFuel` on the length skeleton. -/
def chunkRun {β : Type} (oracle : Nat → Option (Int × β)) (ts : Int) :
    Nat → AudioEncSkel β → AudioEncSkel β × List (Int × Int)
  | 0, s => (s, [])
  | fuel + 1, s =>
    if 0 < s.frame_size ∧ s.frame_size ≤ s.leftover_len then
      let buf1 := s.audio_buffer.insert_capture_time ts
      let buf2 := match oracle s.sent with
        | some pd => buf1.insert_frame pd.1 pd.2
        | none => buf1
      let s' : AudioEncSkel β :=
        { s with
            leftover_len := s.leftover_len - s.frame_size
            audio_buffer := buf2
            sent := s.sent + 1
            next_pts := s.next_pts + (s.frame_size : Int) }
      let r := chunkRun oracle ts fuel s'
      (r.1, (ts, s.next_pts) :: r.2)
    else (s, [])

/-- Computable mirror of `AudioEncoder.process` on the length skeleton. -/
def processRun {β : Type} (oracle : Nat → Option (Int × β)) (s : AudioEncSkel β)
    (n : Nat) (ts : Int) : Except Unit (AudioEncSkel β × List (Int × Int)) :=
  if ¬ s.encoder_present then .ok (s, [])
  else if n % s.channels ≠ 0 then .error ()
  else
    let s := { s with leftover_len := s.leftover_len + n }
    .ok (chunkRun oracle ts s.leftover_len s)

/-- Computable mirror of `AudioEncoder.processAll` on the length skeleton. -/
def processRunAll {β : Type} (oracle : Nat → Option (Int × β)) :
    AudioEncSkel β → List (Nat × Int) → Except Unit (AudioEncSkel β × List (Int × Int))
  | s, [] => .ok (s, [])
  | s, (n, ts) :: rest =>
    match processRun oracle s n ts with
    | .error e => .error e
    | .ok (s', tr) =>
      match processRunAll oracle s' rest with
      | .error e => .error e
      | .ok (s'', tr') => .ok (s'', tr ++ tr')

/-- The structural invariant of `ShadowCaptureVideoBuffer` for keyframe-led
strictly-increasing-DTS streams: frames and recorded keyframes are nonempty,
both key sequences are strictly sorted, every recorded keyframe DTS is a key
of the frame map, and the smallest frame DTS is the first recorded keyframe
DTS. -/
def VideoInvNE (b : ShadowCaptureVideoBuffer) : Prop :=
  b.frames ≠ [] ∧ b.key_frame_keys ≠ [] ∧
    (b.frames.map Prod.fst).Pairwise (· < ·) ∧
    b.key_frame_keys.Pairwise (· < ·) ∧
    (∀ kk ∈ b.key_frame_keys, kk ∈ b.frames.map Prod.fst) ∧
    b.frames.head?.map Prod.fst = b.key_frame_keys.head?

/-- One `insert_capture_time` followed by one frame `insert` per raw chunk:
the call discipline of the audio encoder. -/
def pairOps : ShadowCaptureAudioBuffer → List (Int × Int × List Nat) →
    Option ShadowCaptureAudioBuffer
  | b, [] => some b
  | b, (t, pts, data) :: rest =>
    match (b.insert_capture_time t).insert pts data with
    | none => none
    | some b' => pairOps b' rest

/-- `ONE_MICROS` (`video_encoder.rs`): microseconds per second. -/
def ONE_MICROS : Nat := 1000000

/-- The `FakeAudioEncoder` of `audio_encoder_tests.rs` as a receive oracle:
every `send_frame` echoes a packet whose pts is `(sent_frames.len() - 1) *
frame_size`, i.e. `send_index * 960`; payloads are irrelevant. -/
def fakeOracle : Nat → Option (Int × Unit) := fun sent => some ((sent : Int) * 960, ())

/-- The encoder state built by `AudioEncoder::new_with_encoder(fake, 60)` in
`test_process_duplicate_timestamps_when_leftover_is_multiple_of_sample`:
channels 2, frame size 960, a fresh buffer with `max_time = 60 * ONE_MICROS`,
`next_pts = 0`, empty leftover. -/
def audioTestState : AudioEncState Unit :=
  ⟨true, 2, 960, ⟨[], 60 * ONE_MICROS, []⟩, 0, [], 0⟩

/-- The 15 raw frames of 1024 zero samples with timestamps 1..15 fed in the
duplicate-timestamp test. -/
noncomputable def duplicateTsFrames : List (List ℝ × Int) :=
  (List.range 15).map (fun i => (List.replicate 1024 (0 : ℝ), (i : Int) + 1))

/-- Length skeleton of `duplicateTsFrames`. -/
def duplicateTsSkel : List (Nat × Int) :=
  (List.range 15).map (fun i => (1024, (i : Int) + 1))

theorem boost_with_rms_length (samples : List ℝ) :
    (boost_with_rms samples).length = samples.length := by
  simp [boost_with_rms]

theorem sendChunksFuel_skel {β : Type} (oracle : Nat → Option (Int × β)) (ts : Int) :
    ∀ (fuel : Nat) (s : AudioEncState β),
      skelOf (sendChunksFuel oracle ts fuel s).1 = (chunkRun oracle ts fuel (skelOf s)).1 ∧
      (sendChunksFuel oracle ts fuel s).2 = (chunkRun oracle ts fuel (skelOf s)).2 := by
  intro fuel
  induction fuel with
  | zero => intro s; exact ⟨rfl, rfl⟩
  | succ n ih =>
    intro s
    by_cases h : 0 < s.frame_size ∧ s.frame_size ≤ s.leftover_data.length
    · have h' : 0 < (skelOf s).frame_size ∧ (skelOf s).frame_size ≤ (skelOf s).leftover_len := h
      simp only [sendChunksFuel, chunkRun, if_pos h, if_pos h']
      refine ⟨(ih _).1.trans ?_, ?_⟩
      · congr 1
        simp [skelOf, List.length_drop]
      · have := (ih ({ s with
            leftover_data := s.leftover_data.drop s.frame_size
            audio_buffer := match oracle s.sent with
              | some pd => (s.audio_buffer.insert_capture_time ts).insert_frame pd.1 pd.2
              | none => s.audio_buffer.insert_capture_time ts
            sent := s.sent + 1
            next_pts := s.next_pts + (s.frame_size : Int) } : AudioEncState β)).2
        simp only [this]
        congr 2
        simp [skelOf, List.length_drop]
    · have h' : ¬ (0 < (skelOf s).frame_size ∧ (skelOf s).frame_size ≤ (skelOf s).leftover_len) := h
      simp [sendChunksFuel, chunkRun, if_neg h, if_neg h']

theorem process_skel {β : Type} (oracle : Nat → Option (Int × β)) (s : AudioEncState β)
    (samples : List ℝ) (ts : Int) :
    (AudioEncoder.process oracle s samples ts).map (fun r => (skelOf r.1, r.2)) =
      processRun oracle (skelOf s) samples.length ts := by
  have hb := boost_with_rms_length samples
  by_cases h1 : s.encoder_present
  · by_cases h2 : samples.length % s.channels = 0
    · have hlen : (s.leftover_data ++ boost_with_rms samples).length =
          s.leftover_data.length + samples.length := by simp [hb]
      have key := sendChunksFuel_skel oracle ts
        ((s.leftover_data ++ boost_with_rms samples).length)
        ({ s with leftover_data := s.leftover_data ++ boost_with_rms samples })
      simp only [skelOf, hlen, h1] at key
      simp [AudioEncoder.process, processRun, skelOf, h1, h2, Except.map, hlen]
      rw [Prod.ext_iff]
      exact ⟨key.1, key.2⟩
    · simp [AudioEncoder.process, processRun, skelOf, h1, h2, Except.map]
  · simp [AudioEncoder.process, processRun, skelOf, h1, Except.map]

theorem processAll_skel {β : Type} (oracle : Nat → Option (Int × β)) :
    ∀ (ops : List (List ℝ × Int)) (s : AudioEncState β),
      (AudioEncoder.processAll oracle s ops).map (fun r => (skelOf r.1, r.2)) =
        processRunAll oracle (skelOf s) (ops.map (fun p => (p.1.length, p.2))) := by
  intro ops
  induction ops with
  | nil => intro s; simp [AudioEncoder.processAll, processRunAll, Except.map]
  | cons op rest ih =>
    intro s
    obtain ⟨samples, ts⟩ := op
    have h1 := process_skel oracle s samples ts
    cases hp : AudioEncoder.process oracle s samples ts with
    | error e =>
      rw [hp] at h1
      simp only [Except.map] at h1
      simp [AudioEncoder.processAll, processRunAll, hp, ← h1, Except.map]
    | ok r =>
      obtain ⟨s1, tr1⟩ := r
      rw [hp] at h1
      simp only [Except.map] at h1
      cases ha : AudioEncoder.processAll oracle s1 rest with
      | error e =>
        have h2 := ih s1
        rw [ha] at h2
        simp only [Except.map] at h2
        simp [AudioEncoder.processAll, processRunAll, hp, ha, ← h1, ← h2, Except.map]
      | ok r2 =>
        obtain ⟨s2, tr2⟩ := r2
        have h2 := ih s1
        rw [ha] at h2
        simp only [Except.map] at h2
        simp [AudioEncoder.processAll, processRunAll, hp, ha, ← h1, ← h2, Except.map]

theorem traceFor_length (ts : Int) (frame_size : Nat) :
    ∀ (k : Nat) (pts0 : Int), (traceFor ts pts0 frame_size k).length = k := by
  intro k
  induction k with
  | zero => intro pts0; rfl
  | succ n ih => intro pts0; simp [traceFor, ih]

theorem traceFor_fst (ts : Int) (frame_size : Nat) :
    ∀ (k : Nat) (pts0 : Int),
      (traceFor ts pts0 frame_size k).map Prod.fst = List.replicate k ts := by
  intro k
  induction k with
  | zero => intro pts0; rfl
  | succ n ih => intro pts0; simp [traceFor, ih, List.replicate]

/-- Full characterisation of the chunk loop on the skeleton: with positive
frame size `F` and enough fuel, it drains `len / F` chunks, records the
trace, leaves `len % F` samples, and advances `next_pts` and `sent` by one
frame per chunk, touching nothing else outside the buffer. -/
theorem chunkRun_spec {β : Type} (oracle : Nat → Option (Int × β)) (ts : Int) :
    ∀ (fuel : Nat) (s : AudioEncSkel β), 0 < s.frame_size → s.leftover_len ≤ fuel →
      (chunkRun oracle ts fuel s).2 =
        traceFor ts s.next_pts s.frame_size (s.leftover_len / s.frame_size) ∧
      (chunkRun oracle ts fuel s).1.leftover_len = s.leftover_len % s.frame_size ∧
      (chunkRun oracle ts fuel s).1.next_pts =
        s.next_pts + (s.frame_size : Int) * (s.leftover_len / s.frame_size : Nat) ∧
      (chunkRun oracle ts fuel s).1.frame_size = s.frame_size ∧
      (chunkRun oracle ts fuel s).1.channels = s.channels ∧
      (chunkRun oracle ts fuel s).1.encoder_present = s.encoder_present ∧
      (chunkRun oracle ts fuel s).1.sent = s.sent + s.leftover_len / s.frame_size := by
  intro fuel
  induction fuel with
  | zero =>
    intro s hF hle
    have h0 : s.leftover_len = 0 := Nat.le_zero.mp hle
    simp [chunkRun, h0, Nat.zero_div, Nat.zero_mod, traceFor]
  | succ n ih =>
    intro s hF hle
    by_cases hguard : s.frame_size ≤ s.leftover_len
    · have hcond : 0 < s.frame_size ∧ s.frame_size ≤ s.leftover_len := ⟨hF, hguard⟩
      have hdiv : s.leftover_len / s.frame_size =
          (s.leftover_len - s.frame_size) / s.frame_size + 1 :=
        Nat.div_eq_sub_div hF hguard
      have hmod : s.leftover_len % s.frame_size =
          (s.leftover_len - s.frame_size) % s.frame_size :=
        (Nat.mod_eq_sub_mod hguard).symm ▸ rfl
      set s' : AudioEncSkel β :=
        { s with
            leftover_len := s.leftover_len - s.frame_size
            audio_buffer :=
              match oracle s.sent with
              | some pd => (s.audio_buffer.insert_capture_time ts).insert_frame pd.1 pd.2
              | none => s.audio_buffer.insert_capture_time ts
            sent := s.sent + 1
            next_pts := s.next_pts + (s.frame_size : Int) } with hs'
      have hle' : s'.leftover_len ≤ n := by
        simp only [hs']
        omega
      have hF' : 0 < s'.frame_size := hF
      have hrec := ih s' hF' hle'
      have hrun : chunkRun oracle ts (n + 1) s =
          ((chunkRun oracle ts n s').1, (ts, s.next_pts) :: (chunkRun oracle ts n s').2) := by
        simp only [chunkRun, if_pos hcond]
      rw [hrun]
      refine ⟨?_, ?_, ?_, ?_, ?_, ?_, ?_⟩
      · rw [hdiv]
        simp only [traceFor]
        rw [hrec.1]
      · rw [hrec.2.1, hmod]
      · rw [hrec.2.2.1, hdiv]
        simp only [hs']
        push_cast
        ring
      · rw [hrec.2.2.2.1]
      · rw [hrec.2.2.2.2.1]
      · rw [hrec.2.2.2.2.2.1]
      · rw [hrec.2.2.2.2.2.2, hdiv]
        simp only [hs']
        omega
    · have hcond : ¬ (0 < s.frame_size ∧ s.frame_size ≤ s.leftover_len) := by
        intro h; exact hguard h.2
      have hlt : s.leftover_len < s.frame_size := Nat.lt_of_not_le hguard
      have hdiv : s.leftover_len / s.frame_size = 0 := Nat.div_eq_of_lt hlt
      have hmod : s.leftover_len % s.frame_size = s.leftover_len := Nat.mod_eq_of_lt hlt
      simp [chunkRun, if_neg hcond, hdiv, hmod, traceFor]

/-- Per-call behaviour of `AudioEncoder::process` with an encoder present
and a valid sample count: exactly `(leftover + samples) / frame_size` chunks
are drained, each recording the raw frame's capture timestamp with pts
advancing by `frame_size` from `next_pts`, and `(leftover + samples) mod
frame_size` samples are preserved for the next call. -/
theorem process_chunks {β : Type} (oracle : Nat → Option (Int × β)) (s : AudioEncState β)
    (samples : List ℝ) (ts : Int)
    (h1 : s.encoder_present = true) (h2 : samples.length % s.channels = 0)
    (h3 : 0 < s.frame_size) :
    ∃ s' : AudioEncState β,
      AudioEncoder.process oracle s samples ts = .ok (s',
        traceFor ts s.next_pts s.frame_size
          ((s.leftover_data.length + samples.length) / s.frame_size)) ∧
      s'.leftover_data.length = (s.leftover_data.length + samples.length) % s.frame_size ∧
      s'.next_pts = s.next_pts + (s.frame_size : Int) *
        (((s.leftover_data.length + samples.length) / s.frame_size : Nat) : Int) ∧
      s'.frame_size = s.frame_size ∧ s'.channels = s.channels ∧
      s'.encoder_present = true := by
  have hmap := process_skel oracle s samples ts
  have hspec := chunkRun_spec oracle ts (s.leftover_data.length + samples.length)
      ({ skelOf s with leftover_len := (skelOf s).leftover_len + samples.length }) h3
      (le_refl _)
  simp only [skelOf, h1] at hspec
  cases hp : AudioEncoder.process oracle s samples ts with
  | error e =>
    rw [hp] at hmap
    simp only [Except.map] at hmap
    exfalso
    simp [processRun, skelOf, h1, h2] at hmap
  | ok r =>
    obtain ⟨s', tr⟩ := r
    rw [hp] at hmap
    simp only [Except.map] at hmap
    simp only [processRun, skelOf, h1, h2] at hmap
    rw [if_neg (by simp), if_neg (by simp [h2])] at hmap
    have hpair := Except.ok.inj hmap
    have hfst : skelOf s' =
        (chunkRun oracle ts (s.leftover_data.length + samples.length)
          { encoder_present := true, channels := s.channels, frame_size := s.frame_size,
            audio_buffer := s.audio_buffer, next_pts := s.next_pts,
            leftover_len := s.leftover_data.length + samples.length, sent := s.sent }).1 := by
      have := congrArg Prod.fst hpair
      simpa [skelOf] using this
    have hsnd : tr =
        (chunkRun oracle ts (s.leftover_data.length + samples.length)
          { encoder_present := true, channels := s.channels, frame_size := s.frame_size,
            audio_buffer := s.audio_buffer, next_pts := s.next_pts,
            leftover_len := s.leftover_data.length + samples.length, sent := s.sent }).2 := by
      exact congrArg Prod.snd hpair
    refine ⟨s', ?_, ?_, ?_, ?_, ?_, ?_⟩
    · congr 1
      rw [Prod.ext_iff]
      exact ⟨rfl, by rw [hsnd, hspec.1]⟩
    · have := congrArg AudioEncSkel.leftover_len hfst
      simpa [skelOf, hspec.2.1] using this
    · have := congrArg AudioEncSkel.next_pts hfst
      simpa [skelOf, hspec.2.2.1] using this
    · have := congrArg AudioEncSkel.frame_size hfst
      simpa [skelOf, hspec.2.2.2.1] using this
    · have := congrArg AudioEncSkel.channels hfst
      simpa [skelOf, hspec.2.2.2.2.1] using this
    · have := congrArg AudioEncSkel.encoder_present hfst
      simpa [skelOf, hspec.2.2.2.2.2.1] using this

/-- Multi-call invariant: over any raw-frame sequence with valid sample
counts, `frame_size * (chunks recorded) + leftover = initial leftover +
total samples`, and after at least one call the leftover is a proper
remainder. -/
theorem processAll_chunks {β : Type} (oracle : Nat → Option (Int × β)) :
    ∀ (ops : List (List ℝ × Int)) (s : AudioEncState β),
      s.encoder_present = true → 0 < s.frame_size →
      (∀ p ∈ ops, p.1.length % s.channels = 0) →
      ∃ (s' : AudioEncState β) (tr : List (Int × Int)),
        AudioEncoder.processAll oracle s ops = .ok (s', tr) ∧
        s.frame_size * tr.length + s'.leftover_data.length =
          s.leftover_data.length + (ops.map (fun p => p.1.length)).sum ∧
        s'.frame_size = s.frame_size ∧ s'.channels = s.channels ∧
        s'.encoder_present = true ∧
        (ops ≠ [] → s'.leftover_data.length < s.frame_size) := by
  intro ops
  induction ops with
  | nil =>
    intro s h1 hF _hm
    exact ⟨s, [], rfl, by simp, rfl, rfl, h1, by simp⟩
  | cons op rest ih =>
    intro s h1 hF hm
    obtain ⟨samples, ts⟩ := op
    have hmod0 : samples.length % s.channels = 0 := hm _ (List.mem_cons_self _ _)
    obtain ⟨s1, hp, hlen1, _hpts1, hfs1, hch1, henc1⟩ :=
      process_chunks oracle s samples ts h1 hmod0 hF
    have hF1 : 0 < s1.frame_size := by rw [hfs1]; exact hF
    have hm1 : ∀ p ∈ rest, p.1.length % s1.channels = 0 := by
      intro p hp'
      rw [hch1]
      exact hm p (List.mem_cons_of_mem _ hp')
    obtain ⟨s2, tr2, hpa, heq2, hfs2, hch2, henc2, hlast2⟩ := ih s1 henc1 hF1 hm1
    refine ⟨s2,
      traceFor ts s.next_pts s.frame_size
        ((s.leftover_data.length + samples.length) / s.frame_size) ++ tr2,
      ?_, ?_, hfs2.trans hfs1, hch2.trans hch1, henc2, ?_⟩
    · simp [AudioEncoder.processAll, hp, hpa]
    · have heq2' := heq2
      rw [hfs1, hlen1] at heq2'
      have hdm := Nat.div_add_mod (s.leftover_data.length + samples.length) s.frame_size
      have hmul := Nat.mul_add s.frame_size
        ((s.leftover_data.length + samples.length) / s.frame_size) tr2.length
      simp only [List.length_append, traceFor_length, List.map_cons, List.sum_cons]
      rw [hmul]
      generalize hA : s.frame_size *
        ((s.leftover_data.length + samples.length) / s.frame_size) = A at hdm
      generalize hB : s.frame_size * tr2.length = B at heq2'
      generalize hC : (s.leftover_data.length + samples.length) % s.frame_size = C at hdm heq2'
      omega
    · intro _
      rcases List.eq_nil_or_concat rest with hrest | ⟨l, a, rfl⟩
      · subst hrest
        have h := hpa
        simp only [AudioEncoder.processAll] at h
        have h2 := Except.ok.inj h
        have hs2 : s2 = s1 := (congrArg Prod.fst h2).symm
        rw [hs2, hlen1]
        exact Nat.mod_lt _ hF
      · have hne : l.concat a ≠ [] := by simp
        have := hlast2 hne
        rw [hfs1] at this
        exact this

theorem sum_sq_nonneg (l : List ℝ) : 0 ≤ (l.map (fun s => s * s)).sum := by
  apply List.sum_nonneg
  intro x hx
  simp only [List.mem_map] at hx
  obtain ⟨a, _, rfl⟩ := hx
  exact mul_self_nonneg a

theorem rmsOf_map_mul (l : List ℝ) (g : ℝ) (hg : 0 ≤ g) :
    rmsOf (l.map (fun s => s * g)) = g * rmsOf l := by
  unfold rmsOf
  rw [List.map_map]
  have h1 : ((fun s => s * s) ∘ fun s => s * g) = fun s : ℝ => s * s * (g * g) := by
    funext s
    simp only [Function.comp_apply]
    ring
  rw [h1, List.sum_map_mul_right, List.length_map, mul_div_right_comm,
    Real.sqrt_mul (div_nonneg (sum_sq_nonneg l) (Nat.cast_nonneg _)),
    Real.sqrt_mul_self hg, mul_comm]

theorem boost_with_rms_characterization (l : List ℝ) :
    boost_with_rms l =
      if 0 < rmsOf l ∧ rmsOf l < MIN_RMS then
        l.map (fun s => s * min (MIN_RMS / rmsOf l) 5)
      else l := by
  unfold boost_with_rms
  by_cases h : rmsOf l > 0 ∧ rmsOf l < MIN_RMS
  · simp only [if_pos h]
  · simp only [if_neg h]
    have h5 : min (1 : ℝ) 5 = 1 := min_eq_left (by norm_num)
    simp [h5]

/-- The trim loop of `ShadowCaptureAudioBuffer::insert` never exits when the
frame map is empty while the capture-time span still reaches `max_time`:
the loop body removes nothing, so every guard re-evaluation sees the same
state. -/
theorem trimLoop_stuck (b : ShadowCaptureAudioBuffer) (h1 : b.frames = [])
    (o n : Int) (h2 : b.capture_times.head? = some o)
    (h3 : b.capture_times.getLast? = some n) (h4 : n - o ≥ (b.max_time : Int)) :
    ∀ fuel, ShadowCaptureAudioBuffer.trimLoop fuel b = none := by
  intro fuel
  induction fuel with
  | zero => rfl
  | succ k ih =>
    simp only [ShadowCaptureAudioBuffer.trimLoop, h2, h3, if_pos h4, h1, List.head?_nil]
    exact ih

theorem btreeInsert_append {α : Type} (k : Int) (v : α) :
    ∀ l : List (Int × α), (∀ p ∈ l, p.1 < k) → btreeInsert k v l = l ++ [(k, v)] := by
  intro l
  induction l with
  | nil => intro _; rfl
  | cons hd tl ih =>
    intro h
    have hhd : hd.1 < k := h hd (List.mem_cons_self _ _)
    have h1 : ¬ k < hd.1 := by omega
    have h2 : ¬ k = hd.1 := by omega
    obtain ⟨k', v'⟩ := hd
    simp only [btreeInsert, if_neg h1, if_neg h2, List.cons_append, List.cons.injEq, true_and]
    exact ih (fun p hp => h p (List.mem_cons_of_mem _ hp))

theorem btreeInsert_mem {α : Type} (k : Int) (v : α) :
    ∀ (l : List (Int × α)) (p : Int × α), p ∈ btreeInsert k v l → p = (k, v) ∨ p ∈ l := by
  intro l
  induction l with
  | nil =>
    intro p hp
    simp [btreeInsert] at hp
    exact Or.inl hp
  | cons hd tl ih =>
    intro p hp
    obtain ⟨k', v'⟩ := hd
    simp only [btreeInsert] at hp
    by_cases h1 : k < k'
    · rw [if_pos h1] at hp
      simp only [List.mem_cons] at hp
      rcases hp with h | h | h
      · exact Or.inl h
      · exact Or.inr (by simp [h])
      · exact Or.inr (List.mem_cons_of_mem _ h)
    · rw [if_neg h1] at hp
      by_cases h2 : k = k'
      · rw [if_pos h2] at hp
        simp only [List.mem_cons] at hp
        rcases hp with h | h
        · exact Or.inl h
        · exact Or.inr (List.mem_cons_of_mem _ h)
      · rw [if_neg h2] at hp
        simp only [List.mem_cons] at hp
        rcases hp with h | h
        · exact Or.inr (by simp [h])
        · rcases ih p h with h' | h'
          · exact Or.inl h'
          · exact Or.inr (List.mem_cons_of_mem _ h')

theorem btreeInsert_length_fresh {α : Type} (k : Int) (v : α) :
    ∀ l : List (Int × α), k ∉ l.map Prod.fst →
      (btreeInsert k v l).length = l.length + 1 := by
  intro l
  induction l with
  | nil => intro _; rfl
  | cons hd tl ih =>
    intro h
    obtain ⟨k', v'⟩ := hd
    simp only [List.map_cons, List.mem_cons] at h
    push_neg at h
    by_cases h1 : k < k'
    · simp [btreeInsert, if_pos h1]
    · simp only [btreeInsert, if_neg h1, if_neg h.1]
      simp [ih h.2]

theorem filter_ge_head {α : Type} (x : Int) :
    ∀ l : List (Int × α), (l.map Prod.fst).Pairwise (· < ·) →
      x ∈ l.map Prod.fst →
      ((l.filter (fun p => decide (p.1 ≥ x))).head?).map Prod.fst = some x := by
  intro l
  induction l with
  | nil => intro _ hx; simp at hx
  | cons hd tl ih =>
    intro hpw hx
    obtain ⟨k', v'⟩ := hd
    simp only [List.map_cons, List.pairwise_cons] at hpw
    rcases lt_trichotomy k' x with h | h | h
    · have hnot : ¬ ((k', v').1 ≥ x) := by omega
      have hmem : x ∈ tl.map Prod.fst := by
        simp only [List.map_cons, List.mem_cons] at hx
        rcases hx with h' | h'
        · omega
        · exact h'
      simpa [List.filter_cons, hnot] using ih hpw.2 hmem
    · subst h
      have hyes : ((k', v').1 ≥ k') := le_refl _
      simp [List.filter_cons, hyes]
    · exfalso
      simp only [List.map_cons, List.mem_cons] at hx
      rcases hx with h' | h'
      · omega
      · have := hpw.1 x h'
        omega

theorem recalculate_pts_frames (b : ShadowCaptureVideoBuffer) :
    b.recalculate_pts.frames = b.frames := rfl

theorem recalculate_pts_keys (b : ShadowCaptureVideoBuffer) :
    b.recalculate_pts.key_frame_keys = b.key_frame_keys := rfl

theorem trim_frames_of_many (b : ShadowCaptureVideoBuffer)
    (hlen : ¬ b.key_frame_keys.length ≤ 1) :
    b.trim_oldest_gop.frames =
      b.frames.filter (fun p => decide (p.1 ≥ b.key_frame_keys.getD 1 0)) := by
  unfold ShadowCaptureVideoBuffer.trim_oldest_gop
  rw [if_neg hlen]
  rfl

theorem trim_keys_of_many (b : ShadowCaptureVideoBuffer)
    (hlen : ¬ b.key_frame_keys.length ≤ 1) :
    b.trim_oldest_gop.key_frame_keys = b.key_frame_keys.tail := by
  unfold ShadowCaptureVideoBuffer.trim_oldest_gop
  rw [if_neg hlen]
  rfl

theorem trim_of_few (b : ShadowCaptureVideoBuffer)
    (hlen : b.key_frame_keys.length ≤ 1) : b.trim_oldest_gop = b := by
  unfold ShadowCaptureVideoBuffer.trim_oldest_gop
  rw [if_pos hlen]

theorem trim_preserves (b : ShadowCaptureVideoBuffer) (h : VideoInvNE b) :
    VideoInvNE b.trim_oldest_gop ∧ ∀ p ∈ b.trim_oldest_gop.frames, p ∈ b.frames := by
  obtain ⟨hfne, hkne, hfpw, hkpw, hsub, hhead⟩ := h
  by_cases hlen : b.key_frame_keys.length ≤ 1
  · rw [trim_of_few b hlen]
    exact ⟨⟨hfne, hkne, hfpw, hkpw, hsub, hhead⟩, fun p hp => hp⟩
  · have htf := trim_frames_of_many b hlen
    have htk := trim_keys_of_many b hlen
    obtain ⟨k0, keys', hk0⟩ := List.exists_cons_of_ne_nil hkne
    have hkne' : keys' ≠ [] := by
      intro hnil
      rw [hk0, hnil] at hlen
      simp at hlen
    obtain ⟨k1, krest, hk1⟩ := List.exists_cons_of_ne_nil hkne'
    have hk : b.key_frame_keys = k0 :: k1 :: krest := by rw [hk0, hk1]
    have hstop : b.key_frame_keys.getD 1 0 = k1 := by rw [hk]; rfl
    have hk1mem : k1 ∈ b.frames.map Prod.fst := hsub k1 (by rw [hk]; simp)
    have hk1le : ∀ kk ∈ k1 :: krest, k1 ≤ kk := by
      intro kk hkk
      rcases List.mem_cons.mp hkk with h | h
      · omega
      · have hpw' : (k1 :: krest).Pairwise (· < ·) := by
          rw [hk] at hkpw
          exact (List.pairwise_cons.mp hkpw).2
        have := (List.pairwise_cons.mp hpw').1 kk h
        omega
    obtain ⟨p1, hp1mem, hp1fst⟩ := List.mem_map.mp hk1mem
    have hkept : p1 ∈ b.frames.filter (fun p => decide (p.1 ≥ b.key_frame_keys.getD 1 0)) := by
      apply List.mem_filter.mpr
      refine ⟨hp1mem, ?_⟩
      rw [hstop, hp1fst]
      simp
    refine ⟨⟨?_, ?_, ?_, ?_, ?_, ?_⟩, ?_⟩
    · rw [htf]
      exact List.ne_nil_of_mem hkept
    · rw [htk, hk]
      simp
    · rw [htf]
      exact hfpw.sublist ((List.filter_sublist _).map Prod.fst)
    · rw [htk, hk]
      simp only [List.tail_cons]
      rw [hk] at hkpw
      exact (List.pairwise_cons.mp hkpw).2
    · intro kk hkk
      rw [htk, hk] at hkk
      simp only [List.tail_cons] at hkk
      rw [htf]
      have hkkmem : kk ∈ b.frames.map Prod.fst := by
        apply hsub kk
        rw [hk]
        exact List.mem_cons_of_mem _ hkk
      obtain ⟨p, hpmem, hpfst⟩ := List.mem_map.mp hkkmem
      apply List.mem_map.mpr
      refine ⟨p, List.mem_filter.mpr ⟨hpmem, ?_⟩, hpfst⟩
      have := hk1le kk hkk
      rw [hstop, hpfst]
      simp only [ge_iff_le, decide_eq_true_eq]
      omega
    · rw [htf, htk, hstop, hk]
      simp only [List.tail_cons, List.head?_cons]
      exact filter_ge_head k1 b.frames hfpw hk1mem
    · intro p hp
      rw [htf] at hp
      exact (List.mem_filter.mp hp).1

theorem insert_eq (b : ShadowCaptureVideoBuffer) (dts : Int) (f : EncodedVideoFrame) :
    b.insert dts f =
      (let b3 : ShadowCaptureVideoBuffer :=
        ⟨btreeInsert dts f b.frames, b.max_time,
          if f.is_keyframe then b.key_frame_keys ++ [dts] else b.key_frame_keys,
          b.time_window.insert_time f.pts⟩
       match b3.time_window.get_elapsed with
       | some elapsed =>
           if elapsed ≥ (b.max_time : Int) then b3.trim_oldest_gop else b3
       | none => b3) := by
  by_cases hkey : f.is_keyframe <;>
    simp [ShadowCaptureVideoBuffer.insert, hkey]

theorem insert_preserves (b : ShadowCaptureVideoBuffer) (dts : Int) (f : EncodedVideoFrame)
    (hfresh : ∀ p ∈ b.frames, p.1 < dts)
    (h : VideoInvNE b ∨ (b.frames = [] ∧ b.key_frame_keys = [] ∧ f.is_keyframe = true)) :
    VideoInvNE (b.insert dts f) ∧ ∀ p ∈ (b.insert dts f).frames, p.1 ≤ dts := by
  have happ : btreeInsert dts f b.frames = b.frames ++ [(dts, f)] :=
    btreeInsert_append dts f b.frames hfresh
  set b3 : ShadowCaptureVideoBuffer :=
    ⟨btreeInsert dts f b.frames, b.max_time,
      if f.is_keyframe then b.key_frame_keys ++ [dts] else b.key_frame_keys,
      b.time_window.insert_time f.pts⟩ with hb3
  have hinv3 : VideoInvNE b3 := by
    rcases h with hinv | ⟨hfe, hke, hkeyf⟩
    · obtain ⟨hfne, hkne, hfpw, hkpw, hsub, hhead⟩ := hinv
      obtain ⟨p0, ftl, hfeq⟩ : ∃ p0 ftl, b.frames = p0 :: ftl := by
        cases hfeq : b.frames with
        | nil => exact absurd hfeq hfne
        | cons a l => exact ⟨a, l, rfl⟩
      have hkltdts : ∀ kk ∈ b.key_frame_keys, kk < dts := by
        intro kk hkk
        obtain ⟨p, hpmem, hpfst⟩ := List.mem_map.mp (hsub kk hkk)
        have := hfresh p hpmem
        omega
      have hfpw3 : (b3.frames.map Prod.fst).Pairwise (· < ·) := by
        simp only [hb3, happ, List.map_append]
        rw [List.pairwise_append]
        refine ⟨hfpw, List.pairwise_singleton _ _, ?_⟩
        intro x hx y hy
        simp only [List.map_cons, List.map_nil, List.mem_singleton] at hy
        obtain ⟨p, hpmem, hpfst⟩ := List.mem_map.mp hx
        subst hy
        rw [← hpfst]
        exact hfresh p hpmem
      have hkpw3 : b3.key_frame_keys.Pairwise (· < ·) := by
        simp only [hb3]
        by_cases hkey : f.is_keyframe
        · rw [if_pos hkey, List.pairwise_append]
          exact ⟨hkpw, List.pairwise_singleton _ _,
            fun x hx y hy => by simp at hy; subst hy; exact hkltdts x hx⟩
        · rw [if_neg hkey]; exact hkpw
      have hsub3 : ∀ kk ∈ b3.key_frame_keys, kk ∈ b3.frames.map Prod.fst := by
        intro kk hkk
        simp only [hb3, happ, List.map_append]
        simp only [hb3] at hkk
        by_cases hkey : f.is_keyframe
        · rw [if_pos hkey] at hkk
          rcases List.mem_append.mp hkk with h' | h'
          · exact List.mem_append_left _ (hsub kk h')
          · simp at h'
            subst h'
            apply List.mem_append_right
            simp
        · rw [if_neg hkey] at hkk
          exact List.mem_append_left _ (hsub kk hkk)
      have hhead3 : b3.frames.head?.map Prod.fst = b3.key_frame_keys.head? := by
        have hf3 : b3.frames.head? = b.frames.head? := by
          show (btreeInsert dts f b.frames).head? = b.frames.head?
          rw [happ, hfeq]
          rfl
        have hk3 : b3.key_frame_keys.head? = b.key_frame_keys.head? := by
          simp only [hb3]
          by_cases hkey : f.is_keyframe
          · rw [if_pos hkey]
            cases hkeq : b.key_frame_keys with
            | nil => exact absurd hkeq hkne
            | cons a l => rfl
          · rw [if_neg hkey]
        rw [hf3, hk3]
        exact hhead
      refine ⟨?_, ?_, hfpw3, hkpw3, hsub3, hhead3⟩
      · show btreeInsert dts f b.frames ≠ []
        rw [happ]
        simp
      · simp only [hb3]
        by_cases hkey : f.is_keyframe
        · rw [if_pos hkey]; simp
        · rw [if_neg hkey]; exact hkne
    · refine ⟨?_, ?_, ?_, ?_, ?_, ?_⟩ <;>
        simp [hb3, happ, hfe, hke, hkeyf, btreeInsert]
  have hbound3 : ∀ p ∈ b3.frames, p.1 ≤ dts := by
    intro p hp
    simp only [hb3, happ] at hp
    rcases List.mem_append.mp hp with h' | h'
    · exact le_of_lt (hfresh p h')
    · simp at h'
      rw [h']
  rw [insert_eq]
  show VideoInvNE (match b3.time_window.get_elapsed with
      | some elapsed => if elapsed ≥ (b.max_time : Int) then b3.trim_oldest_gop else b3
      | none => b3) ∧
    ∀ p ∈ (match b3.time_window.get_elapsed with
      | some elapsed => if elapsed ≥ (b.max_time : Int) then b3.trim_oldest_gop else b3
      | none => b3).frames, p.1 ≤ dts
  cases hel : b3.time_window.get_elapsed with
  | none => exact ⟨hinv3, hbound3⟩
  | some e =>
    show VideoInvNE (if e ≥ (b.max_time : Int) then b3.trim_oldest_gop else b3) ∧
      ∀ p ∈ (if e ≥ (b.max_time : Int) then b3.trim_oldest_gop else b3).frames, p.1 ≤ dts
    by_cases hcmp : e ≥ (b.max_time : Int)
    · rw [if_pos hcmp]
      obtain ⟨hinvT, hsubT⟩ := trim_preserves b3 hinv3
      exact ⟨hinvT, fun p hp => hbound3 p (hsubT p hp)⟩
    · rw [if_neg hcmp]
      exact ⟨hinv3, hbound3⟩

theorem insertAll_inv :
    ∀ (ops : List (Int × EncodedVideoFrame)) (b : ShadowCaptureVideoBuffer),
      (VideoInvNE b ∨ (b.frames = [] ∧ b.key_frame_keys = [])) →
      (ops.map Prod.fst).Pairwise (· < ·) →
      (∀ p ∈ b.frames, ∀ o ∈ ops, p.1 < o.1) →
      (b.frames = [] → ∀ o0 ∈ ops.head?, o0.2.is_keyframe = true) →
      (VideoInvNE (b.insertAll ops) ∨
        ((b.insertAll ops).frames = [] ∧ (b.insertAll ops).key_frame_keys = [])) := by
  intro ops
  induction ops with
  | nil =>
    intro b hb _ _ _
    exact hb
  | cons op rest ih =>
    intro b hb hpw hfresh hfirst
    obtain ⟨dts, f⟩ := op
    have hfr : ∀ p ∈ b.frames, p.1 < dts := by
      intro p hp
      exact hfresh p hp (dts, f) (List.mem_cons_self _ _)
    have hstep : VideoInvNE (b.insert dts f) ∧ ∀ p ∈ (b.insert dts f).frames, p.1 ≤ dts := by
      rcases hb with hinv | ⟨hfe, hke⟩
      · exact insert_preserves b dts f hfr (Or.inl hinv)
      · have hkey : f.is_keyframe = true := by
          apply hfirst hfe (dts, f)
          simp
        exact insert_preserves b dts f hfr (Or.inr ⟨hfe, hke, hkey⟩)
    rw [List.map_cons] at hpw
    have hth := List.pairwise_cons.mp hpw
    have hpwc : ∀ x ∈ rest.map Prod.fst, dts < x := hth.1
    have hpw' : (rest.map Prod.fst).Pairwise (· < ·) := hth.2
    have hfresh' : ∀ p ∈ (b.insert dts f).frames, ∀ o ∈ rest, p.1 < o.1 := by
      intro p hp o ho
      have h1 := hstep.2 p hp
      have h2 : dts < o.1 := hpwc o.1 (List.mem_map_of_mem Prod.fst ho)
      omega
    have hfirst' : (b.insert dts f).frames = [] → ∀ o0 ∈ rest.head?, o0.2.is_keyframe = true :=
      fun hfe' => absurd hfe' hstep.1.1
    exact ih (b.insert dts f) (Or.inl hstep.1) hpw' hfresh' hfirst'

/-- When the capture-times list is no longer than the frames map, the audio
trim loop terminates within `capture_times.length + 1` guard evaluations and
pops the same number `p` of entries from both sequences. -/
theorem trimLoop_balanced :
    ∀ (fuel : Nat) (b : ShadowCaptureAudioBuffer),
      b.capture_times.length ≤ b.frames.length →
      b.capture_times.length + 1 ≤ fuel →
      ∃ (b' : ShadowCaptureAudioBuffer) (p : Nat),
        ShadowCaptureAudioBuffer.trimLoop fuel b = some b' ∧
        b'.frames.length = b.frames.length - p ∧
        b'.capture_times.length = b.capture_times.length - p ∧
        p ≤ b.capture_times.length ∧
        (∀ q ∈ b'.frames, q ∈ b.frames) := by
  intro fuel
  induction fuel with
  | zero =>
    intro b _ hf
    omega
  | succ n ih =>
    intro b hle hfuel
    cases hct : b.capture_times with
    | nil =>
      have hct0 : b.capture_times.length = 0 := by rw [hct]; rfl
      refine ⟨b, 0, ?_, by omega, by simp [hct0], by simp, fun q hq => hq⟩
      simp [ShadowCaptureAudioBuffer.trimLoop, hct]
    | cons t ct =>
      have hh : b.capture_times.head? = some t := by rw [hct]; rfl
      have hctlen : b.capture_times.length = ct.length + 1 := by rw [hct]; rfl
      obtain ⟨lastv, hl⟩ : ∃ v, b.capture_times.getLast? = some v := by
        rw [hct]
        cases hgl : (t :: ct).getLast? with
        | none => simp at hgl
        | some v => exact ⟨v, rfl⟩
      by_cases hg : lastv - t ≥ (b.max_time : Int)
      · cases hfr : b.frames with
        | nil =>
          rw [hfr] at hle
          rw [hctlen] at hle
          simp at hle
        | cons q0 qtl =>
          have hq0 : b.frames.head? = some q0 := by rw [hfr]; rfl
          have hfrlen : b.frames.length = qtl.length + 1 := by rw [hfr]; rfl
          set b2 : ShadowCaptureAudioBuffer :=
            { b with frames := b.frames.tail, capture_times := b.capture_times.tail } with hb2
          have hstep : ShadowCaptureAudioBuffer.trimLoop (n + 1) b =
              ShadowCaptureAudioBuffer.trimLoop n b2 := by
            simp only [ShadowCaptureAudioBuffer.trimLoop, hh, hl, if_pos hg, hq0]
          have hb2ct : b2.capture_times.length = ct.length := by
            show b.capture_times.tail.length = ct.length
            rw [hct]
            rfl
          have hb2fr : b2.frames.length = qtl.length := by
            show b.frames.tail.length = qtl.length
            rw [hfr]
            rfl
          have hle2 : b2.capture_times.length ≤ b2.frames.length := by
            rw [hb2ct, hb2fr]
            rw [hctlen, hfrlen] at hle
            omega
          have hfuel2 : b2.capture_times.length + 1 ≤ n := by
            rw [hb2ct]
            rw [hctlen] at hfuel
            omega
          obtain ⟨b', p, hrun, hfl, hcl, hple, hmem⟩ := ih b2 hle2 hfuel2
          rw [hb2ct] at hcl hple
          rw [hb2fr] at hfl
          refine ⟨b', p + 1, hstep.trans hrun, ?_, ?_, ?_, ?_⟩
          · rw [hfl]
            simp only [List.length_cons]
            omega
          · rw [hcl]
            simp only [List.length_cons]
            omega
          · simp only [List.length_cons]
            omega
          · intro q hq
            have := hmem q hq
            have hsub : b2.frames = b.frames.tail := rfl
            rw [hsub, hfr] at this
            exact List.mem_of_mem_tail this
      · refine ⟨b, 0, ?_, by omega, by simp [hctlen], by simp, fun q hq => hq⟩
        simp only [ShadowCaptureAudioBuffer.trimLoop, hh, hl, if_neg hg]

theorem pairOps_lockstep :
    ∀ (ops : List (Int × Int × List Nat)) (b : ShadowCaptureAudioBuffer),
      b.frames.length = b.capture_times.length →
      (∀ q ∈ b.frames, ∀ o ∈ ops, q.1 < o.2.1) →
      ((ops.map (fun o => o.2.1)).Pairwise (· < ·)) →
      ∃ b', pairOps b ops = some b' ∧ b'.frames.length = b'.capture_times.length := by
  intro ops
  induction ops with
  | nil =>
    intro b hlen _ _
    exact ⟨b, rfl, hlen⟩
  | cons op rest ih =>
    intro b hlen hfresh hpw
    obtain ⟨t, pts, data⟩ := op
    set b1 := b.insert_capture_time t with hb1
    have hb1fr : b1.frames = b.frames := rfl
    have hb1ct : b1.capture_times = b.capture_times ++ [t] := rfl
    have hnotin : pts ∉ b1.frames.map Prod.fst := by
      rw [hb1fr]
      intro hmem
      obtain ⟨q, hq, hq1⟩ := List.mem_map.mp hmem
      have := hfresh q hq (t, pts, data) (List.mem_cons_self _ _)
      simp only at this
      omega
    set b2 : ShadowCaptureAudioBuffer := { b1 with frames := btreeInsert pts data b1.frames }
      with hb2
    have hb2len : b2.frames.length = b2.capture_times.length := by
      show (btreeInsert pts data b1.frames).length = b1.capture_times.length
      rw [btreeInsert_length_fresh pts data b1.frames hnotin, hb1fr, hb1ct, hlen]
      simp
    have hfuel : b2.capture_times.length + 1 ≤ b1.capture_times.length + 2 := by
      show b1.capture_times.length + 1 ≤ b1.capture_times.length + 2
      omega
    obtain ⟨b3, p, hrun, hfl, hcl, hple, hmem⟩ :=
      trimLoop_balanced (b1.capture_times.length + 2) b2 (le_of_eq hb2len.symm) hfuel
    have hins : b1.insert pts data = some b3 := hrun
    have hlen3 : b3.frames.length = b3.capture_times.length := by
      rw [hfl, hcl, hb2len]
    rw [List.map_cons] at hpw
    have hth := List.pairwise_cons.mp hpw
    have hfresh3 : ∀ q ∈ b3.frames, ∀ o ∈ rest, q.1 < o.2.1 := by
      intro q hq o ho
      have hq2 := hmem q hq
      have hcase := btreeInsert_mem pts data b1.frames q hq2
      rcases hcase with hq3 | hq3
      · have := hth.1 o.2.1 (List.mem_map_of_mem _ ho)
        rw [hq3]
        exact this
      · rw [hb1fr] at hq3
        exact hfresh q hq3 o (List.mem_cons_of_mem _ ho)
    obtain ⟨bf, hbf, hbflen⟩ := ih b3 hlen3 hfresh3 hth.2
    refine ⟨bf, ?_, hbflen⟩
    show (match (b.insert_capture_time t).insert pts data with
          | none => none
          | some b' => pairOps b' rest) = some bf
    rw [hins]
    exact hbf

/-- Once `first_offset` is latched, the video pass writes exactly the frames
that survive the skip test, rebased by the latched offset, and never
panics while the capture-times list is nonempty. -/
theorem videoLoop_flagged (ct : List Int) (c0 : Int) (hc : ct.head? = some c0) :
    ∀ (l : List (Int × EncodedVideoFrame)) (base newest : Int),
      (videoLoop ct l true base newest).1 =
        (l.filter (fun p => decide (¬ (c0 > p.2.pts ∧ ¬ p.2.is_keyframe)))).map
          (fun p => (p.2.pts - base, p.1 - base)) ∧
      (videoLoop ct l true base newest).2.2.2.2 = false := by
  intro l
  induction l with
  | nil =>
    intro base newest
    exact ⟨rfl, rfl⟩
  | cons hd tl ih =>
    intro base newest
    obtain ⟨dts, f⟩ := hd
    by_cases hskip : c0 > f.pts ∧ ¬ f.is_keyframe
    · have h1 : videoLoop ct ((dts, f) :: tl) true base newest =
          videoLoop ct tl true base newest := by
        simp only [videoLoop, hc, if_pos hskip]
      have hfilt : decide (¬ (c0 > f.pts ∧ ¬ f.is_keyframe)) = false := by
        simp only [decide_eq_false_iff_not, not_not]
        exact hskip
      rw [h1]
      constructor
      · rw [(ih base newest).1, List.filter_cons, hfilt]
        simp
      · exact (ih base newest).2
    · have h1 : videoLoop ct ((dts, f) :: tl) true base newest =
          ((f.pts - base, dts - base) :: (videoLoop ct tl true base f.pts).1,
            (videoLoop ct tl true base f.pts).2) := by
        simp only [videoLoop, hc, if_neg hskip, Bool.not_true]
        simp
      have hfilt : decide (¬ (c0 > f.pts ∧ ¬ f.is_keyframe)) = true := by
        simp only [decide_eq_true_eq]
        exact hskip
      rw [h1]
      constructor
      · rw [(ih base f.pts).1, List.filter_cons, hfilt]
        simp
      · exact (ih base f.pts).2

set_option maxRecDepth 4000 in
theorem duplicateTs_map :
    duplicateTsFrames.map (fun p => (p.1.length, p.2)) = duplicateTsSkel := by
  unfold duplicateTsFrames duplicateTsSkel
  rw [List.map_map]
  apply List.map_congr_left
  intro i _
  simp [Function.comp, List.length_replicate]

theorem dupRun_eval :
    (processRunAll fakeOracle (skelOf audioTestState) duplicateTsSkel).toOption.map
      (fun r => (r.1.audio_buffer.capture_times, r.2.map Prod.fst)) =
    some ([1, 2, 3, 4, 5, 6, 7, 8, 9, 10, 11, 12, 13, 14, 15, 15],
      [1, 2, 3, 4, 5, 6, 7, 8, 9, 10, 11, 12, 13, 14, 15, 15]) := by
  decide

/-- **C1** (the claim as stated is violated by the code; this theorem
evaluates `save_buffer` at the failing input).  Video buffer: one keyframe
at dts 10 with pts 10.  Audio buffer: frames at pts 0 and 960 with capture
timestamps `[5, 10]`.  The video pass writes the keyframe rebased to pts 0
and sets `newest_video_pts = 10`, `video_base_pts = 10`.  Under the claim,
the second audio frame — whose own capture timestamp 10 satisfies
`10 ≥ video_base_pts` and `¬(10 > newest_video_pts)` — must be written with
`pts = dts = 960 - 960 = 0`.  The code instead skips the first frame with
`continue` without advancing `iter`, so the second frame is compared against
`capture_times[0] = 5 < 10` and is skipped as well: no audio packet at all
is written, yet the run completes without error. -/
theorem mux_audio_skip_stalls_iterator :
    (save_buffer ⟨[(10, ⟨[1], 10, true, 10⟩)], 10, [10], TimeWindow.new⟩
        ⟨[(0, [0]), (960, [0])], 10, [5, 10]⟩).video = [(0, 0)] ∧
    (save_buffer ⟨[(10, ⟨[1], 10, true, 10⟩)], 10, [10], TimeWindow.new⟩
        ⟨[(0, [0]), (960, [0])], 10, [5, 10]⟩).audio = [] ∧
    (save_buffer ⟨[(10, ⟨[1], 10, true, 10⟩)], 10, [10], TimeWindow.new⟩
        ⟨[(0, [0]), (960, [0])], 10, [5, 10]⟩).outcome = .ok ∧
    ((10 : Int) ≥ 10 ∧ ¬ ((10 : Int) > 10)) := by
  decide

/-- **C2**: in the muxer's video pass, only frames with `dts ≤
last_gop_start` are candidates; among them exactly the non-keyframes with
`pts < capture_times[0]` are skipped; when the first frame of the range is a
keyframe it is the first packet written, its rebased pts is 0, and every
written packet carries `pts = orig_pts - base`, `dts = orig_dts - base`
where `base` is that keyframe's original pts. -/
theorem mux_video_pass_cutoff_and_rebase
    (vb : ShadowCaptureVideoBuffer) (ab : ShadowCaptureAudioBuffer)
    (k c0 d0 : Int) (f0 : EncodedVideoFrame)
    (hk : vb.get_last_gop_start = some k)
    (hct : ab.capture_times.head? = some c0)
    (hhead : (vb.frames.filter (fun p => decide (p.1 ≤ k))).head? = some (d0, f0))
    (hkey : f0.is_keyframe = true) :
    (save_buffer vb ab).video =
      ((vb.frames.filter (fun p => decide (p.1 ≤ k))).filter
          (fun p => decide (¬ (c0 > p.2.pts ∧ ¬ p.2.is_keyframe)))).map
        (fun p => (p.2.pts - f0.pts, p.1 - f0.pts)) ∧
    (save_buffer vb ab).video.head? = some (0, d0 - f0.pts) ∧
    ∀ w ∈ (save_buffer vb ab).video,
      ∃ p ∈ vb.frames, p.1 ≤ k ∧ w = (p.2.pts - f0.pts, p.1 - f0.pts) := by
  obtain ⟨rtl, hrange⟩ : ∃ rtl,
      vb.frames.filter (fun p => decide (p.1 ≤ k)) = (d0, f0) :: rtl := by
    cases hr : vb.frames.filter (fun p => decide (p.1 ≤ k)) with
    | nil => rw [hr] at hhead; simp at hhead
    | cons a l =>
      rw [hr] at hhead
      simp only [List.head?_cons, Option.some.injEq] at hhead
      exact ⟨l, by rw [hhead]⟩
  have hnoskip : ¬ (c0 > f0.pts ∧ ¬ f0.is_keyframe) := by
    intro hcontra
    rw [hkey] at hcontra
    simp at hcontra
  have hstep : videoLoop ab.capture_times (vb.frames.filter (fun p => decide (p.1 ≤ k)))
        false 0 0 =
      ((f0.pts - f0.pts, d0 - f0.pts) :: (videoLoop ab.capture_times rtl true f0.pts f0.pts).1,
        (videoLoop ab.capture_times rtl true f0.pts f0.pts).2) := by
    rw [hrange]
    simp only [videoLoop, hct, if_neg hnoskip, Bool.not_false]
    simp
  have hflag := videoLoop_flagged ab.capture_times c0 hct rtl f0.pts f0.pts
  have hsv : (save_buffer vb ab).video =
      (f0.pts - f0.pts, d0 - f0.pts) ::
        ((rtl.filter (fun p => decide (¬ (c0 > p.2.pts ∧ ¬ p.2.is_keyframe)))).map
          (fun p => (p.2.pts - f0.pts, p.1 - f0.pts))) := by
    unfold save_buffer
    rw [hk]
    simp only [hstep, hflag.2]
    rw [if_neg (by simp)]
    rw [hflag.1]
  have hfiltc : (vb.frames.filter (fun p => decide (p.1 ≤ k))).filter
        (fun p => decide (¬ (c0 > p.2.pts ∧ ¬ p.2.is_keyframe))) =
      (d0, f0) :: rtl.filter (fun p => decide (¬ (c0 > p.2.pts ∧ ¬ p.2.is_keyframe))) := by
    rw [hrange, List.filter_cons,
      if_pos (show decide (¬ (c0 > f0.pts ∧ ¬ f0.is_keyframe)) = true by
        rw [decide_eq_true_eq]; exact hnoskip)]
  refine ⟨?_, ?_, ?_⟩
  · rw [hsv, hfiltc]
    simp
  · rw [hsv]
    simp
  · intro w hw
    rw [hsv] at hw
    rcases List.mem_cons.mp hw with hw | hw
    · have hmem : (d0, f0) ∈ vb.frames.filter (fun p => decide (p.1 ≤ k)) := by
        rw [hrange]
        exact List.mem_cons_self _ _
      have := List.mem_filter.mp hmem
      exact ⟨(d0, f0), this.1, by simpa using this.2, by simpa using hw⟩
    · obtain ⟨p, hpmem, hpw⟩ := List.mem_map.mp hw
      have hpr : p ∈ vb.frames.filter (fun q => decide (q.1 ≤ k)) := by
        rw [hrange]
        exact List.mem_cons_of_mem _ (List.mem_filter.mp hpmem).1
      have := List.mem_filter.mp hpr
      exact ⟨p, this.1, by simpa using this.2, hpw.symm⟩

/-- **C2** witness: a buffer with a single keyframe (dts 10, pts 10) and a
single audio capture time 5: the hypotheses hold and the written video
packet list is the rebased keyframe. -/
theorem mux_video_pass_cutoff_and_rebase_witness :
    (ShadowCaptureVideoBuffer.mk [(10, ⟨[1], 10, true, 10⟩)] 10 [10]
        TimeWindow.new).get_last_gop_start = some 10 ∧
    (save_buffer ⟨[(10, ⟨[1], 10, true, 10⟩)], 10, [10], TimeWindow.new⟩
        ⟨[(0, [0])], 10, [5]⟩).video.head? = some (0, 0) :=
  ⟨by decide,
    (mux_video_pass_cutoff_and_rebase
      ⟨[(10, ⟨[1], 10, true, 10⟩)], 10, [10], TimeWindow.new⟩
      ⟨[(0, [0])], 10, [5]⟩ 10 5 10 ⟨[1], 10, true, 10⟩
      (by decide) (by decide) (by decide) (by decide)).2.1⟩

/-- **C3** counterexample (closed, two concrete insert sequences).
Sequence A — keyframes only, DTS 0,1,2, pts 1000, 1001, 0, window 10: after
the inserts the buffer holds two keyframes (DTS 1, 2), each remaining GOP is
a single frame (pts span 0 per GOP), yet `newest_pts - oldest_pts = 1001`,
violating `newest - oldest < W + one_gop_duration` for any reading of
`one_gop_duration` drawn from the buffer (`1001 ≥ 10 + 0`); the code trims at
most one GOP per insert (`if`, not `while`).  Sequence B — a non-keyframe
first (DTS 0), then keyframes at DTS 1, 2, window 1000: two keyframes are
present but the smallest DTS in the buffer (0) is not a recorded keyframe
DTS. -/
theorem video_buffer_span_invariant_fails :
    ((((ShadowCaptureVideoBuffer.new 10).insert 0 ⟨[1], 1000, true, 0⟩).insert 1
        ⟨[1], 1001, true, 1⟩).insert 2 ⟨[1], 0, true, 2⟩).key_frame_keys = [1, 2] ∧
    ((((ShadowCaptureVideoBuffer.new 10).insert 0 ⟨[1], 1000, true, 0⟩).insert 1
        ⟨[1], 1001, true, 1⟩).insert 2 ⟨[1], 0, true, 2⟩).frames =
      [(1, ⟨[1], 1001, true, 1⟩), (2, ⟨[1], 0, true, 2⟩)] ∧
    ((((ShadowCaptureVideoBuffer.new 10).insert 0 ⟨[1], 1000, true, 0⟩).insert 1
        ⟨[1], 1001, true, 1⟩).insert 2 ⟨[1], 0, true, 2⟩).oldest_pts = some 0 ∧
    ((((ShadowCaptureVideoBuffer.new 10).insert 0 ⟨[1], 1000, true, 0⟩).insert 1
        ⟨[1], 1001, true, 1⟩).insert 2 ⟨[1], 0, true, 2⟩).newest_pts = some 1001 ∧
    ¬ ((1001 : Int) - 0 < 10 + 0) ∧
    ((((ShadowCaptureVideoBuffer.new 1000).insert 0 ⟨[1], 0, false, 0⟩).insert 1
        ⟨[1], 1, true, 1⟩).insert 2 ⟨[1], 2, true, 2⟩).key_frame_keys = [1, 2] ∧
    ((((ShadowCaptureVideoBuffer.new 1000).insert 0 ⟨[1], 0, false, 0⟩).insert 1
        ⟨[1], 1, true, 1⟩).insert 2 ⟨[1], 2, true, 2⟩).frames.head?.map Prod.fst =
      some 0 ∧
    (0 : Int) ∉ ((((ShadowCaptureVideoBuffer.new 1000).insert 0 ⟨[1], 0, false, 0⟩).insert 1
        ⟨[1], 1, true, 1⟩).insert 2 ⟨[1], 2, true, 2⟩).key_frame_keys := by
  decide

/-- **C3** (amended): for every insertion sequence with strictly increasing
DTS whose first frame is a keyframe, the smallest DTS present in the
Rolling Video Buffer is always the first recorded keyframe DTS — in
particular a recorded keyframe DTS.  (The claimed span bound `newest_pts -
oldest_pts < W + one_gop_duration` does not hold in general: the code trims
at most one GOP per insert and the cached pts window can jump arbitrarily in
one insert; see the counterexample.) -/
theorem video_buffer_min_dts_is_first_keyframe
    (W : Nat) (ops : List (Int × EncodedVideoFrame))
    (hpw : (ops.map Prod.fst).Pairwise (· < ·))
    (hfirst : ∀ o0 ∈ ops.head?, o0.2.is_keyframe = true) :
    ((ShadowCaptureVideoBuffer.new W).insertAll ops).frames.head?.map Prod.fst =
      ((ShadowCaptureVideoBuffer.new W).insertAll ops).key_frame_keys.head? ∧
    ∀ d ∈ (((ShadowCaptureVideoBuffer.new W).insertAll ops).frames.head?.map Prod.fst),
      d ∈ ((ShadowCaptureVideoBuffer.new W).insertAll ops).key_frame_keys := by
  have h := insertAll_inv ops (ShadowCaptureVideoBuffer.new W)
    (Or.inr ⟨rfl, rfl⟩) hpw
    (by intro p hp _ _; simp [ShadowCaptureVideoBuffer.new] at hp)
    (fun _ => hfirst)
  rcases h with hinv | ⟨hfe, hke⟩
  · refine ⟨hinv.2.2.2.2.2, ?_⟩
    intro d hd
    rw [hinv.2.2.2.2.2] at hd
    exact List.mem_of_mem_head? hd
  · rw [hfe, hke]
    exact ⟨rfl, by simp⟩

/-- **C3** witness: window 10, inserts keyframe (dts 0, pts 0) then
non-keyframe (dts 1, pts 3); the smallest DTS present equals the first
recorded keyframe DTS. -/
theorem video_buffer_min_dts_is_first_keyframe_witness :
    (([((0 : Int), (⟨[1], 0, true, 0⟩ : EncodedVideoFrame)),
        (1, ⟨[1], 3, false, 1⟩)].map Prod.fst).Pairwise (· < ·)) ∧
    ((ShadowCaptureVideoBuffer.new 10).insertAll
        [((0 : Int), ⟨[1], 0, true, 0⟩), (1, ⟨[1], 3, false, 1⟩)]).frames.head?.map
        Prod.fst =
      ((ShadowCaptureVideoBuffer.new 10).insertAll
        [((0 : Int), ⟨[1], 0, true, 0⟩), (1, ⟨[1], 3, false, 1⟩)]).key_frame_keys.head? :=
  ⟨by decide,
    (video_buffer_min_dts_is_first_keyframe 10
      [((0 : Int), ⟨[1], 0, true, 0⟩), (1, ⟨[1], 3, false, 1⟩)]
      (by decide) (by intro o0 ho; simp at ho; rw [← ho])).1⟩

/-- **C4** counterexample (closed): a single `insert_capture_time` on a
fresh Rolling Audio Buffer leaves one capture time and zero frames — the
two lengths differ after that call, refuting "equal length after each
call" for arbitrary call sequences. -/
theorem audio_buffer_lockstep_fails_unpaired :
    ((ShadowCaptureAudioBuffer.new 10).insert_capture_time 5).capture_times.length = 1 ∧
    ((ShadowCaptureAudioBuffer.new 10).insert_capture_time 5).frames.length = 0 ∧
    ((ShadowCaptureAudioBuffer.new 10).insert_capture_time 5).capture_times.length ≠
      ((ShadowCaptureAudioBuffer.new 10).insert_capture_time 5).frames.length := by
  decide

/-- **C4** (amended): when the two mutators are called in the encoder's
lock-step discipline — per chunk one `insert_capture_time` immediately
followed by one frame `insert` with a fresh (strictly increasing) pts key —
every `insert`'s trim loop terminates and evicts from the head of both
sequences together, so `len(frames) = len(capture_times)` holds after each
pair (the lengths necessarily differ between the two calls of a pair). -/
theorem audio_buffer_lockstep_paired
    (ops : List (Int × Int × List Nat)) (b : ShadowCaptureAudioBuffer)
    (hlen : b.frames.length = b.capture_times.length)
    (hfresh : ∀ q ∈ b.frames, ∀ o ∈ ops, q.1 < o.2.1)
    (hpw : (ops.map (fun o => o.2.1)).Pairwise (· < ·)) :
    ∃ b', pairOps b ops = some b' ∧ b'.frames.length = b'.capture_times.length :=
  pairOps_lockstep ops b hlen hfresh hpw

/-- **C4** witness: two paired calls on a fresh buffer with window 10. -/
theorem audio_buffer_lockstep_paired_witness :
    (([((1 : Int), (10 : Int), ([] : List Nat)), (2, 20, [])].map
        (fun o => o.2.1)).Pairwise (· < ·)) ∧
    ∃ b', pairOps (ShadowCaptureAudioBuffer.new 10)
        [((1 : Int), (10 : Int), ([] : List Nat)), (2, 20, [])] = some b' ∧
      b'.frames.length = b'.capture_times.length :=
  ⟨by decide,
    audio_buffer_lockstep_paired [((1 : Int), (10 : Int), ([] : List Nat)), (2, 20, [])]
      (ShadowCaptureAudioBuffer.new 10) (by decide)
      (by intro q hq; simp [ShadowCaptureAudioBuffer.new] at hq) (by decide)⟩

/-- **C5**: the GOP-boundary trim scenario of `test_video_buffer_trimming`:
10 inserts at DTS 0..9 with pts 0,3,5,7,9,11,13,15,17,19 and keyframes at
DTS 0,3,6,9 into a window-10 buffer leave exactly 4 frames, oldest pts 13,
newest pts 19, and `last_gop_start = 9`. -/
theorem video_buffer_gop_trim_scenario :
    ((ShadowCaptureVideoBuffer.new 10).insertAll
        [(0, ⟨[1], 0, true, 0⟩), (1, ⟨[1], 3, false, 3⟩), (2, ⟨[1], 5, false, 5⟩),
          (3, ⟨[1], 7, true, 7⟩), (4, ⟨[1], 9, false, 9⟩), (5, ⟨[1], 11, false, 11⟩),
          (6, ⟨[1], 13, true, 13⟩), (7, ⟨[1], 15, false, 15⟩), (8, ⟨[1], 17, false, 17⟩),
          (9, ⟨[1], 19, true, 19⟩)]).frames.length = 4 ∧
    ((ShadowCaptureVideoBuffer.new 10).insertAll
        [(0, ⟨[1], 0, true, 0⟩), (1, ⟨[1], 3, false, 3⟩), (2, ⟨[1], 5, false, 5⟩),
          (3, ⟨[1], 7, true, 7⟩), (4, ⟨[1], 9, false, 9⟩), (5, ⟨[1], 11, false, 11⟩),
          (6, ⟨[1], 13, true, 13⟩), (7, ⟨[1], 15, false, 15⟩), (8, ⟨[1], 17, false, 17⟩),
          (9, ⟨[1], 19, true, 19⟩)]).oldest_pts = some 13 ∧
    ((ShadowCaptureVideoBuffer.new 10).insertAll
        [(0, ⟨[1], 0, true, 0⟩), (1, ⟨[1], 3, false, 3⟩), (2, ⟨[1], 5, false, 5⟩),
          (3, ⟨[1], 7, true, 7⟩), (4, ⟨[1], 9, false, 9⟩), (5, ⟨[1], 11, false, 11⟩),
          (6, ⟨[1], 13, true, 13⟩), (7, ⟨[1], 15, false, 15⟩), (8, ⟨[1], 17, false, 17⟩),
          (9, ⟨[1], 19, true, 19⟩)]).newest_pts = some 19 ∧
    ((ShadowCaptureVideoBuffer.new 10).insertAll
        [(0, ⟨[1], 0, true, 0⟩), (1, ⟨[1], 3, false, 3⟩), (2, ⟨[1], 5, false, 5⟩),
          (3, ⟨[1], 7, true, 7⟩), (4, ⟨[1], 9, false, 9⟩), (5, ⟨[1], 11, false, 11⟩),
          (6, ⟨[1], 13, true, 13⟩), (7, ⟨[1], 15, false, 15⟩), (8, ⟨[1], 17, false, 17⟩),
          (9, ⟨[1], 19, true, 19⟩)]).get_last_gop_start = some 9 := by
  decide

/-- **C7**: `boost_with_rms` multiplies all samples by
`min(MIN_RMS / rms, 5)` exactly when `0 < rms < MIN_RMS` and leaves them
unchanged otherwise; for any non-silent input (`rms > 0`) the output RMS is
at least `min(MIN_RMS, 5 * rms)`; all-zero input is unchanged. -/
theorem boost_with_rms_spec (l : List ℝ) :
    (boost_with_rms l =
      if 0 < rmsOf l ∧ rmsOf l < MIN_RMS then
        l.map (fun s => s * min (MIN_RMS / rmsOf l) 5)
      else l) ∧
    (0 < rmsOf l → min MIN_RMS (5 * rmsOf l) ≤ rmsOf (boost_with_rms l)) ∧
    ((∀ x ∈ l, x = 0) → boost_with_rms l = l) := by
  refine ⟨boost_with_rms_characterization l, ?_, ?_⟩
  · intro hpos
    rw [boost_with_rms_characterization l]
    by_cases hlt : rmsOf l < MIN_RMS
    · rw [if_pos ⟨hpos, hlt⟩]
      have hgain : (0 : ℝ) ≤ min (MIN_RMS / rmsOf l) 5 := by
        apply le_min
        · exact div_nonneg (by norm_num [MIN_RMS]) (le_of_lt hpos)
        · norm_num
      rw [rmsOf_map_mul l _ hgain]
      rw [min_mul_of_nonneg _ _ (le_of_lt hpos)]
      rw [div_mul_cancel₀ _ (ne_of_gt hpos)]
    · rw [if_neg (by intro hc; exact hlt hc.2)]
      have h1 : MIN_RMS ≤ rmsOf l := le_of_not_lt hlt
      exact le_trans (min_le_left _ _) h1
  · intro hz
    have hsum : (l.map (fun s => s * s)).sum = 0 := by
      apply List.sum_eq_zero
      intro x hx
      obtain ⟨a, ha, rfl⟩ := List.mem_map.mp hx
      rw [hz a ha]
      ring
    have hrms : rmsOf l = 0 := by
      unfold rmsOf
      rw [hsum]
      simp
    rw [boost_with_rms_characterization l, if_neg]
    intro hc
    rw [hrms] at hc
    exact lt_irrefl 0 hc.1

/-- **C7** witness: the singleton sample list `[1]` has RMS 1, is not
boosted, and satisfies the output-RMS bound. -/
theorem boost_with_rms_spec_witness :
    0 < rmsOf [1] ∧ min MIN_RMS (5 * rmsOf [1]) ≤ rmsOf (boost_with_rms [1]) := by
  have h1 : rmsOf [1] = 1 := by
    unfold rmsOf
    norm_num
  have hpos : 0 < rmsOf [1] := by rw [h1]; norm_num
  exact ⟨hpos, (boost_with_rms_spec [1]).2.1 hpos⟩

/-- **C8**: if `save_buffer` runs with an empty audio capture-times list
while the video pass has at least one frame to examine (a frame at or
before the last-keyframe cut-off exists), the first skip test indexes
`audio_capture_timestamps[0]` out of bounds and the muxer panics instead of
returning an error.  The second conjunct shows the later
`audio_capture_timestamps[iter]` panic at a concrete input: one capture
time but two buffered audio frames — after one audio packet is written,
`iter = 1` is out of range and the audio pass panics. -/
theorem mux_panics_on_empty_capture_times
    (vb : ShadowCaptureVideoBuffer) (ab : ShadowCaptureAudioBuffer) (k : Int)
    (hk : vb.get_last_gop_start = some k)
    (hct : ab.capture_times = [])
    (hframe : vb.frames.filter (fun p => decide (p.1 ≤ k)) ≠ []) :
    (save_buffer vb ab).outcome = .panicked ∧
    (save_buffer ⟨[(10, ⟨[1], 10, true, 10⟩)], 10, [10], TimeWindow.new⟩
        ⟨[(0, [0]), (960, [0])], 10, [10]⟩).outcome = .panicked := by
  constructor
  · obtain ⟨p0, rtl, hrange⟩ := List.exists_cons_of_ne_nil hframe
    have hpanic : (videoLoop ab.capture_times
        (vb.frames.filter (fun p => decide (p.1 ≤ k))) false 0 0).2.2.2.2 = true := by
      rw [hrange]
      obtain ⟨d, f⟩ := p0
      simp only [videoLoop, hct, List.head?_nil]
    simp only [save_buffer, hk]
    rw [hpanic]
    rfl
  · decide

/-- **C8** witness: a video buffer holding one keyframe at dts 0 and an
audio buffer with no capture times: `save_buffer` panics. -/
theorem mux_panics_on_empty_capture_times_witness :
    (⟨[(0, ⟨[1], 0, true, 0⟩)], 10, [0],
        TimeWindow.new⟩ : ShadowCaptureVideoBuffer).get_last_gop_start = some 0 ∧
    (⟨[], 10, []⟩ : ShadowCaptureAudioBuffer).capture_times = [] ∧
    (save_buffer ⟨[(0, ⟨[1], 0, true, 0⟩)], 10, [0], TimeWindow.new⟩
        ⟨[], 10, []⟩).outcome = .panicked :=
  ⟨by decide, rfl,
    (mux_panics_on_empty_capture_times
      ⟨[(0, ⟨[1], 0, true, 0⟩)], 10, [0], TimeWindow.new⟩ ⟨[], 10, []⟩ 0
      (by decide) rfl (by decide)).1⟩

/-- **C9** (the claim as stated asserts termination; this theorem shows the
failing input).  Reachable state: three `insert_capture_time` calls (0,
100, 200) on a fresh window-10 buffer, then `insert(0, [])`.  The trim
loop pops the single frame together with capture time 0, reaching frames =
`[]` with capture times `[100, 200]` whose span 100 still reaches
`max_time = 10`; from there the loop body removes nothing and the guard
never changes, so no amount of fuel makes the loop finish: the Rust
`while let` runs forever. -/
theorem audio_insert_trim_loop_diverges :
    ∀ fuel : Nat,
      ShadowCaptureAudioBuffer.insertF fuel
        ((((ShadowCaptureAudioBuffer.new 10).insert_capture_time 0).insert_capture_time
            100).insert_capture_time 200) 0 [] = none := by
  intro fuel
  have hstuck := trimLoop_stuck ⟨[], 10, [100, 200]⟩ rfl 100 200 rfl rfl (by norm_num)
  cases fuel with
  | zero => rfl
  | succ n =>
    show ShadowCaptureAudioBuffer.trimLoop (n + 1) ⟨[(0, [])], 10, [0, 100, 200]⟩ = none
    have hstep : ShadowCaptureAudioBuffer.trimLoop (n + 1) ⟨[(0, [])], 10, [0, 100, 200]⟩ =
        ShadowCaptureAudioBuffer.trimLoop n ⟨[], 10, [100, 200]⟩ := rfl
    rw [hstep]
    exact hstuck n

/-- **C10**: `reset()` clears only the frame map and the keyframe list; the
cached time window is untouched, so `oldest_pts`/`newest_pts` still report
the pre-reset values and the first insert after a reset computes its
elapsed-time trim condition from the stale window: inserting a frame with
pts `p` yields elapsed `max M p - min m p` over the pre-reset bounds
`m`/`M` rather than a fresh window. -/
theorem video_reset_keeps_stale_window
    (b : ShadowCaptureVideoBuffer) (m M : Int)
    (hmin : b.time_window.min_time = some m) (hmax : b.time_window.max_time = some M) :
    b.resetBuf.frames = [] ∧ b.resetBuf.key_frame_keys = [] ∧
    b.resetBuf.time_window = b.time_window ∧
    b.resetBuf.oldest_pts = some m ∧ b.resetBuf.newest_pts = some M ∧
    ∀ f : EncodedVideoFrame,
      (b.resetBuf.time_window.insert_time f.pts).get_elapsed =
        some (max M f.pts - min m f.pts) := by
  refine ⟨rfl, rfl, rfl, hmin, hmax, ?_⟩
  intro f
  show (b.time_window.insert_time f.pts).get_elapsed = _
  simp [TimeWindow.insert_time, TimeWindow.get_elapsed, hmin, hmax]

/-- **C10** witness: a buffer whose cached window is `[0, 5]`; after reset
`oldest_pts` still reports 0 and an insert at pts 7 sees elapsed
`max 5 7 - min 0 7 = 7`. -/
theorem video_reset_keeps_stale_window_witness :
    (⟨[(0, ⟨[1], 0, true, 0⟩)], 10, [0],
        ⟨some 0, some 5⟩⟩ : ShadowCaptureVideoBuffer).time_window.min_time = some 0 ∧
    (⟨[(0, ⟨[1], 0, true, 0⟩)], 10, [0],
        ⟨some 0, some 5⟩⟩ : ShadowCaptureVideoBuffer).resetBuf.oldest_pts = some 0 ∧
    ((⟨[(0, ⟨[1], 0, true, 0⟩)], 10, [0],
        ⟨some 0, some 5⟩⟩ : ShadowCaptureVideoBuffer).resetBuf.time_window.insert_time
          (⟨[], 7, false, 0⟩ : EncodedVideoFrame).pts).get_elapsed =
      some (max 5 7 - min 0 7) :=
  ⟨rfl,
    (video_reset_keeps_stale_window _ 0 5 rfl rfl).2.2.2.1,
    (video_reset_keeps_stale_window _ 0 5 rfl rfl).2.2.2.2.2 ⟨[], 7, false, 0⟩⟩

/-- **C6**: per call, `process` drains chunks of exactly `frame_size`
samples, recording one capture timestamp (the raw frame's timestamp) per
chunk with the frame pts advancing by `frame_size` per chunk from
`next_pts`, and preserves the non-divisible remainder in `leftover_data`;
over any call sequence starting empty whose total sample count is
`k * frame_size`, exactly `k` capture timestamps are recorded and no
remainder is left; and feeding 15 raw frames of 1024 zero samples
(frame size 960, timestamps 1..15, the fake always-echo encoder) records 16
capture timestamps whose 16th equals the 15th input timestamp. -/
theorem audio_process_chunking :
    (∀ (β : Type) (oracle : Nat → Option (Int × β)) (s : AudioEncState β)
        (samples : List ℝ) (ts : Int),
        s.encoder_present = true → samples.length % s.channels = 0 → 0 < s.frame_size →
        ∃ s' : AudioEncState β,
          AudioEncoder.process oracle s samples ts = .ok (s',
            traceFor ts s.next_pts s.frame_size
              ((s.leftover_data.length + samples.length) / s.frame_size)) ∧
          s'.leftover_data.length =
            (s.leftover_data.length + samples.length) % s.frame_size ∧
          s'.next_pts = s.next_pts + (s.frame_size : Int) *
            (((s.leftover_data.length + samples.length) / s.frame_size : Nat) : Int)) ∧
    (∀ (β : Type) (oracle : Nat → Option (Int × β)) (s : AudioEncState β)
        (ops : List (List ℝ × Int)) (k : Nat),
        s.encoder_present = true → 0 < s.frame_size → s.leftover_data = [] →
        (∀ p ∈ ops, p.1.length % s.channels = 0) →
        (ops.map (fun p => p.1.length)).sum = k * s.frame_size →
        ∃ (s' : AudioEncState β) (tr : List (Int × Int)),
          AudioEncoder.processAll oracle s ops = .ok (s', tr) ∧
          tr.length = k ∧ s'.leftover_data = []) ∧
    (∃ (s' : AudioEncState Unit) (tr : List (Int × Int)),
        AudioEncoder.processAll fakeOracle audioTestState duplicateTsFrames = .ok (s', tr) ∧
        s'.audio_buffer.capture_times =
          [1, 2, 3, 4, 5, 6, 7, 8, 9, 10, 11, 12, 13, 14, 15, 15] ∧
        tr.map Prod.fst = [1, 2, 3, 4, 5, 6, 7, 8, 9, 10, 11, 12, 13, 14, 15, 15]) := by
  refine ⟨?_, ?_, ?_⟩
  · intro β oracle s samples ts h1 h2 h3
    obtain ⟨s', hp, hlen, hpts, _, _, _⟩ := process_chunks oracle s samples ts h1 h2 h3
    exact ⟨s', hp, hlen, hpts⟩
  · intro β oracle s ops k h1 hF hempty hm hsum
    obtain ⟨s', tr, hpa, heq, _, _, _, hlast⟩ := processAll_chunks oracle ops s h1 hF hm
    rw [hempty, hsum] at heq
    simp only [List.length_nil, Nat.zero_add] at heq
    refine ⟨s', tr, hpa, ?_⟩
    rw [Nat.mul_comm k s.frame_size] at heq
    by_cases hops : ops = []
    · subst hops
      simp only [List.map_nil, List.sum_nil] at hsum
      have hk : k = 0 := by
        rcases Nat.mul_eq_zero.mp hsum.symm with h | h
        · exact h
        · omega
      have ht : s.frame_size * tr.length = 0 ∧ s'.leftover_data.length = 0 := by
        rw [hk] at heq
        simp only [Nat.mul_zero] at heq
        omega
      have ht0 : tr.length = 0 := by
        rcases Nat.mul_eq_zero.mp ht.1 with h | h
        · omega
        · exact h
      rw [hk]
      exact ⟨ht0, List.length_eq_zero.mp ht.2⟩
    · have hL := hlast hops
      rcases Nat.le_total tr.length k with hle | hle
      · obtain ⟨d, rfl⟩ := Nat.exists_eq_add_of_le hle
        rw [Nat.mul_add] at heq
        have hLd : s'.leftover_data.length = s.frame_size * d := by
          generalize s.frame_size * tr.length = A at heq
          generalize s.frame_size * d = B at heq
          omega
        have hd0 : d = 0 := by
          by_contra hd
          have h1d : 1 ≤ d := Nat.one_le_iff_ne_zero.mpr hd
          have : s.frame_size ≤ s.frame_size * d := Nat.le_mul_of_pos_right _ (by omega)
          omega
        subst hd0
        refine ⟨by omega, List.length_eq_zero.mp ?_⟩
        rw [hLd]
        omega
      · obtain ⟨d, hd⟩ := Nat.exists_eq_add_of_le hle
        rw [hd, Nat.mul_add] at heq
        have hd0 : d = 0 ∧ s'.leftover_data.length = 0 := by
          generalize s.frame_size * k = A at heq
          have hFd : d = 0 ∨ s.frame_size ≤ s.frame_size * d := by
            rcases Nat.eq_zero_or_pos d with h | h
            · exact Or.inl h
            · exact Or.inr (Nat.le_mul_of_pos_right _ h)
          rcases hFd with h | h
          · subst h
            simp only [Nat.mul_zero] at heq
            omega
          · generalize s.frame_size * d = B at heq h
            omega
        refine ⟨by omega, List.length_eq_zero.mp hd0.2⟩
  · have hcorr := processAll_skel fakeOracle duplicateTsFrames audioTestState
    rw [duplicateTs_map] at hcorr
    cases hp : AudioEncoder.processAll fakeOracle audioTestState duplicateTsFrames with
    | error e =>
      exfalso
      rw [hp] at hcorr
      simp only [Except.map] at hcorr
      have := dupRun_eval
      rw [← hcorr] at this
      simp [Except.toOption] at this
    | ok r =>
      obtain ⟨s', tr⟩ := r
      rw [hp] at hcorr
      simp only [Except.map] at hcorr
      have hd := dupRun_eval
      rw [← hcorr] at hd
      simp only [Except.toOption, Option.map_some', Option.some.injEq, Prod.mk.injEq] at hd
      exact ⟨s', tr, rfl, hd.1, hd.2⟩

/-- **C6** witness: one call on the fake test state with 1024 zero samples
drains one chunk (1024 / 960 = 1), recording capture timestamp 7 at pts 0
and leaving 64 samples. -/
theorem audio_process_chunking_witness :
    (audioTestState.encoder_present = true ∧ (1024 : Nat) % audioTestState.channels = 0 ∧
      0 < audioTestState.frame_size) ∧
    ∃ s' : AudioEncState Unit,
      AudioEncoder.process fakeOracle audioTestState (List.replicate 1024 (0 : ℝ)) 7 =
        .ok (s', traceFor 7 audioTestState.next_pts audioTestState.frame_size
          ((audioTestState.leftover_data.length +
            (List.replicate 1024 (0 : ℝ)).length) / audioTestState.frame_size)) ∧
      s'.leftover_data.length =
        (audioTestState.leftover_data.length +
          (List.replicate 1024 (0 : ℝ)).length) % audioTestState.frame_size := by
  refine ⟨⟨rfl, by decide, by decide⟩, ?_⟩
  obtain ⟨s', hp, hlen, _⟩ := (audio_process_chunking).1 Unit fakeOracle audioTestState
    (List.replicate 1024 (0 : ℝ)) 7 rfl (by rw [List.length_replicate]; rfl) (by decide)
  exact ⟨s', hp, hlen⟩


